import Mathlib

/-!
# A verification development for MyLisp (`src/MyLisp.py`)

This file gives a shallow embedding, in Lean 4, of the MyLisp interpreter:
the tokenizer (`tokenize`), the parser (`parse` / `parse_rec` / `atom`), the
environment model (`Env`, a dictionary with an `outer` link), the evaluator
(`evaluate`), the primitive table (`standard_env`), the printer (`lisp_str`)
and the driver (`run_code`).  Each Python construct is translated into an
executable Lean definition; stateful code (the mutable environment chain)
becomes explicit state passing over a store of frames, and fallible code
returns explicit error values.

Modelling conventions, fixed once here:

* Python `float` is modelled by `PyFloat`: an exact rational for finite
  values plus `inf`, `neginf` and `nan`.  Real CPython floats are IEEE
  doubles; every double is a (decimal-representable) rational, so the model
  is a superset that is exact on the values the development evaluates.
  Signed zero and rounding of non-representable quotients are not modelled
  (quotients are kept exact).
* Numeric literals are parsed over ASCII digits.  CPython's `int`/`float`
  additionally accept underscore separators and non-ASCII digits; those
  token shapes do not occur in this development.
* `str(float)` in CPython renders the shortest decimal that round-trips and
  switches to scientific notation for very large/small magnitudes.  The
  model renders the (unique) plain decimal form without trailing zeros;
  both notations re-parse to the same value, so round-trip behaviour is
  unaffected.
* Python exceptions that come from the host language rather than from the
  interpreter's own `raise` statements (ValueError from unpacking,
  IndexError from `args[0]`/`e.args[1]`, TypeError from calling a
  non-callable, ZeroDivisionError) are modelled as distinct error values.
-/

namespace MyLisp

/-! ## Characters and digit strings -/

/-- The characters CPython's `str.isspace` recognises in the ASCII range.
Tokens produced by `tokenize` never contain them. -/
def isSpaceChar (c : Char) : Bool :=
  c = ' ' ∨ c = '\t' ∨ c = '\n' ∨ c = '\r' ∨ c = '\x0b' ∨ c = '\x0c'

/-- ASCII decimal digit test. -/
def isDigitChar (c : Char) : Bool :=
  '0' ≤ c ∧ c ≤ '9'

/-- Value of an ASCII digit character. -/
def digitVal (c : Char) : Nat :=
  c.toNat - '0'.toNat

/-- The ASCII digit character for `d < 10`. -/
def digitChar (d : Nat) : Char :=
  Char.ofNat ('0'.toNat + d)

/-- Digit-string builder with an explicit recursion budget; the budget
only needs to exceed the number of digits, and `renderNat` supplies
`n + 1`.  (Structural recursion on the budget keeps the definition
kernel-reducible.) -/
def renderNatGo : Nat → Nat → List Char
  | 0, _ => []
  | fuel + 1, n =>
      if n < 10 then [digitChar n]
      else renderNatGo fuel (n / 10) ++ [digitChar (n % 10)]

/-- Decimal digits of a natural number, most significant first
(model of `str` on a non-negative `int`). -/
def renderNat (n : Nat) : List Char :=
  renderNatGo (n + 1) n

/-- Value of a digit string, most significant first
(`foldl` accumulation, as positional notation). -/
def parseNatDigits (l : List Char) : Nat :=
  l.foldl (fun a c => a * 10 + digitVal c) 0

/-- Model of CPython `int(token)`: an optional sign followed by at least
one ASCII digit. -/
def parseInt (s : List Char) : Option Int :=
  match s with
  | '-' :: rest =>
      if rest ≠ [] ∧ rest.all isDigitChar then some (-(parseNatDigits rest : Int)) else none
  | '+' :: rest =>
      if rest ≠ [] ∧ rest.all isDigitChar then some (parseNatDigits rest : Int) else none
  | rest =>
      if rest ≠ [] ∧ rest.all isDigitChar then some (parseNatDigits rest : Int) else none

/-- Model of `str` on a Python `int`. -/
def renderInt (n : Int) : List Char :=
  if n < 0 then '-' :: renderNat n.natAbs else renderNat n.natAbs

/-! ## The Python float model -/

/-- Model of a CPython `float`: exact rational finite values plus the three
special values.  See the module docstring for the modelling conventions. -/
inductive PyFloat where
  | finite (q : ℚ)
  | inf
  | neginf
  | nan
  deriving DecidableEq, Repr

/-- CPython `==` on two floats: `nan` is unequal to everything, including
itself. -/
def pyFloatEq : PyFloat → PyFloat → Bool
  | .finite a, .finite b => a = b
  | .inf, .inf => true
  | .neginf, .neginf => true
  | _, _ => false

/-! ## Parsing a float token

Model of CPython `float(token)`: an optional sign followed by either a
decimal literal (digits around an optional dot, with an optional exponent)
or one of the words `inf`, `infinity`, `nan` (case-insensitive). -/

/-- Split the longest ASCII-digit prefix off a character list. -/
def takeDigits : List Char → List Char × List Char
  | [] => ([], [])
  | c :: rest =>
      if isDigitChar c then
        let (ds, r) := takeDigits rest
        (c :: ds, r)
      else ([], c :: rest)

/-- Parse the exponent suffix (`e`/`E`, optional sign, digits) if present;
returns the exponent as an integer.  `none` marks a malformed suffix. -/
def parseExponent : List Char → Option Int
  | [] => some 0
  | 'e' :: rest => parseExponentDigits rest
  | 'E' :: rest => parseExponentDigits rest
  | _ => none
where
  parseExponentDigits : List Char → Option Int
  | '-' :: ds => if ds ≠ [] ∧ ds.all isDigitChar then some (-(parseNatDigits ds : Int)) else none
  | '+' :: ds => if ds ≠ [] ∧ ds.all isDigitChar then some (parseNatDigits ds : Int) else none
  | ds => if ds ≠ [] ∧ ds.all isDigitChar then some (parseNatDigits ds : Int) else none

/-- Scale an exact rational by a power of ten. -/
def scalePow10 (q : ℚ) (e : Int) : ℚ :=
  q * (10 : ℚ) ^ e

/-- Parse an unsigned float body: digits, optionally a dot with further
digits, optionally an exponent.  At least one digit must be present. -/
def parseFloatBody (s : List Char) : Option ℚ :=
  let (ipart, rest1) := takeDigits s
  match rest1 with
  | '.' :: rest2 =>
      let (fpart, rest3) := takeDigits rest2
      if ipart = [] ∧ fpart = [] then none
      else
        match parseExponent rest3 with
        | some e =>
            some (scalePow10 ((parseNatDigits ipart * 10 ^ fpart.length + parseNatDigits fpart : ℚ)
              / (10 : ℚ) ^ fpart.length) e)
        | none => none
  | _ =>
      if ipart = [] then none
      else
        match parseExponent rest1 with
        | some e => some (scalePow10 (parseNatDigits ipart : ℚ) e)
        | none => none

/-- Lower-case an ASCII letter. -/
def lowerChar (c : Char) : Char :=
  if 'A' ≤ c ∧ c ≤ 'Z' then Char.ofNat (c.toNat + 32) else c

/-- Strip the optional sign off a float literal. -/
def splitSign : List Char → Bool × List Char
  | '-' :: rest => (true, rest)
  | '+' :: rest => (false, rest)
  | rest => (false, rest)

/-- Model of CPython `float(token)` on a whitespace-free token. -/
def parseFloat (s : List Char) : Option PyFloat :=
  let (neg, body) := splitSign s
  let low := body.map lowerChar
  if low = "inf".toList ∨ low = "infinity".toList then
    some (if neg then .neginf else .inf)
  else if low = "nan".toList then
    some .nan
  else
    match parseFloatBody body with
    | some q => some (.finite (if neg then -q else q))
    | none => none

/-! ## Rendering a float -/

/-- Factor-stripping worker with an explicit recursion budget (`n` itself
is always enough: dividing by `p ≥ 2` can happen at most `log₂ n` times). -/
def stripFactorGo : Nat → Nat → Nat → Nat × Nat
  | 0, _, n => (0, n)
  | fuel + 1, p, n =>
      if 2 ≤ p ∧ 0 < n ∧ p ∣ n then
        let (e, r) := stripFactorGo fuel p (n / p)
        (e + 1, r)
      else (0, n)

/-- Largest `e` with `p ^ e ∣ n`, together with `n / p ^ e`
(for `2 ≤ p`, `0 < n`). -/
def stripFactor (p n : Nat) : Nat × Nat :=
  stripFactorGo n p n

/-- A rational is decimal-representable when its (reduced) denominator has
no prime factors besides 2 and 5.  Every IEEE double is such a rational. -/
def decimalDenom (q : ℚ) : Bool :=
  (stripFactor 5 (stripFactor 2 q.den).2).2 = 1

/-- The digits-and-dot body of a finite float rendered in plain decimal
notation with scale `10 ^ k` (where `k` is large enough that
`q.den ∣ 10 ^ k`): the scaled integer `m` with the decimal point placed
`k` digits from the right. -/
def floatBody (q : ℚ) (k : Nat) : List Char :=
  let m := q.num.natAbs * (10 ^ k / q.den)
  let ds := renderNat m
  if k = 0 then ds ++ ['.', '0']
  else if k < ds.length then ds.take (ds.length - k) ++ '.' :: ds.drop (ds.length - k)
  else '0' :: '.' :: (List.replicate (k - ds.length) '0' ++ ds)

/-- Model of `str` on a Python float.  Finite values are rendered in plain
decimal notation (see the module docstring).  The fallback branch is never
reached from values that model actual Python floats. -/
def renderFloat : PyFloat → List Char
  | .inf => "inf".toList
  | .neginf => "-inf".toList
  | .nan => "nan".toList
  | .finite q =>
      let (a, d2) := stripFactor 2 q.den
      let (b, r) := stripFactor 5 d2
      if r = 1 then
        if q.num < 0 then '-' :: floatBody q (max a b) else floatBody q (max a b)
      else
        renderInt q.num ++ '/' :: renderNat q.den

/-! ## Tokenizer -/

/-- Tokens are plain lexeme strings, as in the source. -/
abbrev Token := String

/-- Model of the comment branch of `tokenize`: drop characters up to and
including the next newline; when there is none, the rest of the input is
discarded (the Python loop `break`s). -/
def dropComment (cs : List Char) : List Char :=
  match cs.dropWhile (fun c => c ≠ '\n') with
  | [] => []
  | _ :: rest => rest

/-- A character that ends an atom run in `tokenize`. -/
def isAtomBreak (c : Char) : Bool :=
  isSpaceChar c ∨ c = '(' ∨ c = ')' ∨ c = ';'

/-- Model of the atom-run loop of `tokenize`: the longest prefix of
non-break characters, and the rest. -/
def takeAtom : List Char → List Char × List Char
  | [] => ([], [])
  | c :: rest =>
      if isAtomBreak c then ([], c :: rest)
      else
        let (a, r) := takeAtom rest
        (c :: a, r)

/-- Tokenizer worker with an explicit recursion budget; every step either
ends the run or strictly shortens the input (`dropComment_cons_length`,
`takeAtom_snd_length`), so one unit of budget per input character plus one
is always enough, and `tokenizeL` supplies exactly that. -/
def tokenizeGo : Nat → List Char → List Token
  | 0, _ => []
  | _ + 1, [] => []
  | fuel + 1, c :: rest =>
      if c = ';' then tokenizeGo fuel (dropComment (c :: rest))
      else if c = '(' ∨ c = ')' then String.mk [c] :: tokenizeGo fuel rest
      else if isSpaceChar c then tokenizeGo fuel rest
      else
        String.mk (takeAtom (c :: rest)).1 :: tokenizeGo fuel (takeAtom (c :: rest)).2

/-- Model of `tokenize`, over explicit character lists. -/
def tokenizeL (cs : List Char) : List Token :=
  tokenizeGo (cs.length + 1) cs

/-- Model of `tokenize` on a string. -/
def tokenize (s : String) : List Token :=
  tokenizeL s.toList

/-! ## Expressions and the parser -/

/-- A parsed S-expression.  In the Python source these are ordinary Python
values (`int`, `float`, `str`, `list`); the tags make the variant explicit. -/
inductive Expr where
  | int (n : Int)
  | float (f : PyFloat)
  | sym (s : String)
  | list (es : List Expr)
  deriving Repr

/-- Model of `atom`: try `int(token)`, then `float(token)`, else keep the
token text as a symbol. -/
def atomExpr (t : Token) : Expr :=
  match parseInt t.toList with
  | some n => .int n
  | none =>
      match parseFloat t.toList with
      | some f => .float f
      | none => .sym t

/-- The two `SyntaxError` shapes `parse_rec` can raise, plus the fuel
marker of the embedding (never reached with the fuel `parse` supplies). -/
inductive PKind where
  | eof
  | close
  | fuelOut
  deriving DecidableEq, Repr

/-- A parse error: its kind and the `line_number` interpolated into the
message.  The remaining token queue is carried alongside, because the
top-level handler interpolates it into the re-raised message. -/
structure ParseErr where
  kind : PKind
  line : Nat
  deriving DecidableEq, Repr

/-- The parser's two modes: parsing one form (`parse_rec` proper), or the
child-collecting `while tokens:` loop entered after `(` was popped, with
its accumulator. -/
inductive PMode where
  | one
  | children (acc : List Expr)

/-- The recursion of `parse_rec`, merged over the two modes so that the
definition is structural in the budget and kernel-reducible.  Errors carry
the remaining token queue (Python mutates the shared list, and the
driver's wrapped message interpolates what is left of it). -/
def parseGo : Nat → PMode → List Token → Nat → Except (ParseErr × List Token) (Expr × List Token)
  | 0, _, ts, ln => .error (⟨.fuelOut, ln⟩, ts)
  | _ + 1, .one, [], ln => .error (⟨.eof, ln⟩, [])
  | fuel + 1, .one, t :: ts, ln =>
      if t = "(" then parseGo fuel (.children []) ts ln
      else if t = ")" then .error (⟨.close, ln⟩, ts)
      else .ok (atomExpr t, ts)
  | _ + 1, .children _, [], ln => .error (⟨.eof, ln⟩, [])
  | fuel + 1, .children acc, t :: ts, ln =>
      if t = ")" then .ok (.list acc, ts)
      else
        match parseGo fuel .one (t :: ts) ln with
        | .error e => .error e
        | .ok (e, ts2) => parseGo fuel (.children (acc ++ [e])) ts2 ln

/-- Model of `parse_rec`: pop one token, recursively build one Expression. -/
def parseRec (fuel : Nat) (ts : List Token) (ln : Nat) :
    Except (ParseErr × List Token) (Expr × List Token) :=
  parseGo fuel .one ts ln

/-- The child-collecting loop: accumulate children until the matching `)`;
an exhausted queue is `unexpected EOF`. -/
def parseList (fuel : Nat) (ts : List Token) (ln : Nat) (acc : List Expr) :
    Except (ParseErr × List Token) (Expr × List Token) :=
  parseGo fuel (.children acc) ts ln

/-- Model of the top-level loop of `parse`: parse forms until the queue is
empty, incrementing `line_number` after each success, and return the forms
together with the final counter. -/
def parseTop : Nat → List Token → Nat → Except (ParseErr × List Token) (List Expr × Nat)
  | 0, ts, ln => .error (⟨.fuelOut, ln⟩, ts)
  | _ + 1, [], ln => .ok ([], ln)
  | fuel + 1, ts, ln =>
      match parseRec (fuel + 1) ts ln with
      | .error e => .error e
      | .ok (e, ts2) =>
          match parseTop fuel ts2 (ln + 1) with
          | .error e2 => .error e2
          | .ok (es, ln2) => .ok (e :: es, ln2)

/-- Fuel sufficient for any run of the parser on `ts`: every two recursion
levels consume at least one token. -/
def parseFuel (ts : List Token) : Nat :=
  2 * ts.length + 4

/-- Model of `parse`: the whole-queue entry point, starting the counter at 1. -/
def parse (ts : List Token) : Except (ParseErr × List Token) (List Expr × Nat) :=
  parseTop (parseFuel ts) ts 1

/-- Model of `read_from_string`. -/
def readFromString (s : String) : Except (ParseErr × List Token) (List Expr × Nat) :=
  parse (tokenize s)

/-! ## Values, environments, and the store

The Python `Env` is a `dict` subclass with an `outer` attribute; closures
capture it by reference and `set!`/`define` mutate it in place.  The
embedding replaces the object graph by a store (`State`): a list of frames
addressed by index, with `outer` links as indices.  `evaluate` threads the
store explicitly and always returns the store it stopped with (Python
exceptions do not roll mutations back).

Primitive procedures from `standard_env` are modelled for the entries this
development exercises; `vars(math)`, `eq?` (object identity), `expt`,
`map`, `max`, `min` and `round` are host-library passthroughs that are not
modelled (none is touched by a claim). -/

/-- Tags for the modelled entries of the builtin table. -/
inductive Prim where
  | add | sub | mul | div
  | gt | lt | ge | le | eqP
  | absP | appendP | begin | car | cdr | cons
  | equal | lengthP | listMk | listP | notP | nullP
  | numberP | procedureP | symbolP
  deriving DecidableEq, Repr

/-- Runtime values: Python `int`, `float`, `str` (symbols), `bool`, `None`
(the unit result of `define`/`set!`), `list`, builtin procedures and
closures.  A closure stores the raw parameter Expression, the body and the
index of its defining frame, exactly the data the Python lambda captures. -/
inductive Value where
  | int (n : Int)
  | float (f : PyFloat)
  | str (s : String)
  | boolV (b : Bool)
  | pyNone
  | listV (xs : List Value)
  | prim (p : Prim)
  | closure (params : Expr) (body : Expr) (env : Nat)
  deriving Repr

/-- One `Env` object: its dictionary and its `outer` reference. -/
structure Frame where
  table : List (String × Value)
  outer : Option Nat
  deriving Repr

/-- The heap of `Env` objects reachable in a run. -/
structure State where
  frames : List Frame
  deriving Repr

/-- Dictionary lookup (keys are unique in a table built by `setTable`). -/
def lookupTable : List (String × Value) → String → Option Value
  | [], _ => none
  | (k2, v) :: rest, k => if k2 = k then some v else lookupTable rest k

/-- Dictionary update: overwrite the existing binding or append a new one. -/
def setTable : List (String × Value) → String → Value → List (String × Value)
  | [], k, v => [(k, v)]
  | (k2, v2) :: rest, k, v =>
      if k2 = k then (k, v) :: rest else (k2, v2) :: setTable rest k v

/-- Model of `Env.find`: walk the `outer` chain from frame `i` and return
the index of the nearest frame defining `v`.  The fuel bound makes the
walk total on arbitrary stores; stores reachable from `initState` have
acyclic chains, so the bound is never the reason a lookup fails. -/
def findEnvAux (s : State) : Nat → Nat → String → Option Nat
  | 0, _, _ => none
  | fuel + 1, i, v =>
      match s.frames[i]? with
      | none => none
      | some fr =>
          if (lookupTable fr.table v).isSome then some i
          else
            match fr.outer with
            | none => none
            | some o => findEnvAux s fuel o v

/-- `Env.find` with the store-sized fuel bound. -/
def findEnv (s : State) (i : Nat) (v : String) : Option Nat :=
  findEnvAux s (s.frames.length + 1) i v

/-- `env[var] = val` on frame `i`. -/
def setVar (s : State) (i : Nat) (k : String) (v : Value) : State :=
  match s.frames[i]? with
  | none => s
  | some fr => ⟨s.frames.set i ⟨setTable fr.table k v, fr.outer⟩⟩

/-- `env[var]` on frame `i`; the default is never reached because `getVar`
is only used on the frame `findEnv` returned. -/
def getVar (s : State) (i : Nat) (k : String) : Value :=
  match s.frames[i]? with
  | none => .pyNone
  | some fr => (lookupTable fr.table k).getD .pyNone

/-! ## Python arithmetic and comparison on values -/

/-- A Python number as the arithmetic sees it: `bool` degrades to `int`
(it is an `int` subclass). -/
inductive PyNum where
  | i (n : Int)
  | f (x : PyFloat)

/-- Which values count as numbers for arithmetic. -/
def asNum : Value → Option PyNum
  | .int n => some (.i n)
  | .boolV b => some (.i (if b then 1 else 0))
  | .float x => some (.f x)
  | _ => none

def pfNeg : PyFloat → PyFloat
  | .finite q => .finite (-q)
  | .inf => .neginf
  | .neginf => .inf
  | .nan => .nan

def pfAdd : PyFloat → PyFloat → PyFloat
  | .nan, _ => .nan
  | _, .nan => .nan
  | .inf, .neginf => .nan
  | .neginf, .inf => .nan
  | .inf, _ => .inf
  | _, .inf => .inf
  | .neginf, _ => .neginf
  | _, .neginf => .neginf
  | .finite a, .finite b => .finite (a + b)

def pfSub (a b : PyFloat) : PyFloat :=
  pfAdd a (pfNeg b)

/-- Sign of a float: `-1`, `0` or `1` (`nan` is handled before use). -/
def pfSign : PyFloat → Int
  | .finite q => if q < 0 then -1 else if q = 0 then 0 else 1
  | .inf => 1
  | .neginf => -1
  | .nan => 0

def pfMul : PyFloat → PyFloat → PyFloat
  | .nan, _ => .nan
  | _, .nan => .nan
  | .finite a, .finite b => .finite (a * b)
  | a, b =>
      if pfSign a * pfSign b = 0 then .nan
      else if pfSign a * pfSign b = 1 then .inf
      else .neginf

/-- `op.truediv` on floats.  Division by (exact) zero is the error case;
the zero test reads the numerator so that it stays kernel-reducible. -/
def pfDiv (a b : PyFloat) : Except Unit PyFloat :=
  match b with
  | .finite q =>
      if q.num = 0 then .error ()
      else
        match a with
        | .nan => .ok .nan
        | .finite x => .ok (.finite (x / q))
        | .inf => .ok (if q.num < 0 then .neginf else .inf)
        | .neginf => .ok (if q.num < 0 then .inf else .neginf)
  | .nan => .ok .nan
  | .inf =>
      (match a with
       | .nan => .ok .nan
       | .finite _ => .ok (.finite 0)
       | _ => .ok .nan)
  | .neginf =>
      (match a with
       | .nan => .ok .nan
       | .finite _ => .ok (.finite 0)
       | _ => .ok .nan)

def intToPf (n : Int) : PyFloat :=
  .finite (n : ℚ)

def pfLt : PyFloat → PyFloat → Bool
  | .nan, _ => false
  | _, .nan => false
  | .neginf, .neginf => false
  | .neginf, _ => true
  | _, .neginf => false
  | .inf, _ => false
  | _, .inf => true
  | .finite a, .finite b => a < b

def pfLe : PyFloat → PyFloat → Bool
  | .nan, _ => false
  | _, .nan => false
  | .neginf, _ => true
  | _, .neginf => false
  | _, .inf => true
  | .inf, _ => false
  | .finite a, .finite b => a ≤ b

def numLt : PyNum → PyNum → Bool
  | .i a, .i b => a < b
  | .i a, .f y => pfLt (intToPf a) y
  | .f x, .i b => pfLt x (intToPf b)
  | .f x, .f y => pfLt x y

def numLe : PyNum → PyNum → Bool
  | .i a, .i b => a ≤ b
  | .i a, .f y => pfLe (intToPf a) y
  | .f x, .i b => pfLe x (intToPf b)
  | .f x, .f y => pfLe x y

def numEq : PyNum → PyNum → Bool
  | .i a, .i b => a = b
  | .i a, .f y => pyFloatEq (intToPf a) y
  | .f x, .i b => pyFloatEq x (intToPf b)
  | .f x, .f y => pyFloatEq x y

mutual
/-- CPython `==` on runtime values (`op.eq`, also used by `equal?` and
`null?`).  Numbers compare across `int`/`float` (`nan` unequal to itself),
strings and lists structurally, `None` to `None`.  Two closure values
compare unequal: distinct Python lambda objects are unequal by identity,
and the model does not distinguish two references to one object (no claim
compares procedures). -/
def pyEq : Value → Value → Bool
  | .str a, .str b => a = b
  | .listV as, .listV bs => pyEqList as bs
  | .pyNone, .pyNone => true
  | .prim a, .prim b => a = b
  | a, b =>
      match asNum a, asNum b with
      | some x, some y => numEq x y
      | _, _ => false

def pyEqList : List Value → List Value → Bool
  | [], [] => true
  | a :: as, b :: bs => pyEq a b && pyEqList as bs
  | _, _ => false
end

/-- CPython truthiness, as used by `(if test ...)`. -/
def truthy : Value → Bool
  | .int n => n ≠ 0
  | .float (.finite q) => q ≠ 0
  | .float _ => true
  | .str s => s ≠ ""
  | .boolV b => b
  | .pyNone => false
  | .listV xs => !xs.isEmpty
  | .prim _ => true
  | .closure _ _ _ => true

mutual
/-- `quote` returns the parse subtree verbatim; in Python the Expression
and the Value are the same object, here the injection is explicit. -/
def exprToValue : Expr → Value
  | .int n => .int n
  | .float f => .float f
  | .sym s => .str s
  | .list es => .listV (exprListToValue es)

def exprListToValue : List Expr → List Value
  | [] => []
  | e :: rest => exprToValue e :: exprListToValue rest
end

/-! ## The interpreter's errors -/

/-- Errors `evaluate` (and the primitives it calls) can produce.  Only
`nameError` comes from a `raise` in the source; the rest are host
exceptions (`ValueError` from tuple unpacking, `IndexError` from indexing,
`TypeError`, `ZeroDivisionError`).  `unmodeled` marks corners of the host
language the embedding does not model (non-symbol binding targets,
parameter lists that are not lists of symbols); no claim reaches them.
`fuelOut` is the embedding's recursion-budget marker. -/
inductive EvalErr where
  | nameError (v : String)
  | valueError (msg : String)
  | indexError
  | typeError (msg : String)
  | zeroDivisionError
  | unmodeled (what : String)
  | fuelOut
  deriving DecidableEq, Repr

/-- `op.add`: numeric addition with int→float promotion, string and list
concatenation. -/
def pyAdd (a b : Value) : Except EvalErr Value :=
  match a, b with
  | .str x, .str y => .ok (.str (x ++ y))
  | .listV x, .listV y => .ok (.listV (x ++ y))
  | _, _ =>
      match asNum a, asNum b with
      | some (.i x), some (.i y) => .ok (.int (x + y))
      | some (.i x), some (.f y) => .ok (.float (pfAdd (intToPf x) y))
      | some (.f x), some (.i y) => .ok (.float (pfAdd x (intToPf y)))
      | some (.f x), some (.f y) => .ok (.float (pfAdd x y))
      | _, _ => .error (.typeError "unsupported operand type for +")

/-- Numeric subtraction (`x - sum(y)`). -/
def pySub (a b : Value) : Except EvalErr Value :=
  match asNum a, asNum b with
  | some (.i x), some (.i y) => .ok (.int (x - y))
  | some (.i x), some (.f y) => .ok (.float (pfSub (intToPf x) y))
  | some (.f x), some (.i y) => .ok (.float (pfSub x (intToPf y)))
  | some (.f x), some (.f y) => .ok (.float (pfSub x y))
  | _, _ => .error (.typeError "unsupported operand type for -")

/-- `op.mul` on numbers.  Python's sequence repetition (`str * int`,
`list * int`) is a host feature outside the model. -/
def pyMul (a b : Value) : Except EvalErr Value :=
  match a, b with
  | .str _, _ | _, .str _ | .listV _, _ | _, .listV _ =>
      .error (.unmodeled "sequence repetition")
  | _, _ =>
      match asNum a, asNum b with
      | some (.i x), some (.i y) => .ok (.int (x * y))
      | some (.i x), some (.f y) => .ok (.float (pfMul (intToPf x) y))
      | some (.f x), some (.i y) => .ok (.float (pfMul x (intToPf y)))
      | some (.f x), some (.f y) => .ok (.float (pfMul x y))
      | _, _ => .error (.typeError "unsupported operand type for *")

/-- `op.truediv`: always a float quotient; division by (exact) zero raises
`ZeroDivisionError`, as in CPython for both int and float divisors. -/
def pyDiv (a b : Value) : Except EvalErr Value :=
  match asNum a, asNum b with
  | some x, some y =>
      let xf := match x with | .i n => intToPf n | .f v => v
      let yf := match y with | .i n => intToPf n | .f v => v
      match pfDiv xf yf with
      | .ok r => .ok (.float r)
      | .error _ => .error .zeroDivisionError
  | _, _ => .error (.typeError "unsupported operand type for /")

/-- Comparison dispatch shared by `>`, `<`, `>=`, `<=`: numbers compare
numerically, strings lexicographically, anything else is a `TypeError`. -/
def pyCompare (lt : Bool) (strict : Bool) (a b : Value) : Except EvalErr Value :=
  let (x, y) := if lt then (a, b) else (b, a)
  match x, y with
  | .str u, .str v =>
      .ok (.boolV (if strict then decide (u < v) else decide (u < v) || decide (u = v)))
  | _, _ =>
      match asNum x, asNum y with
      | some u, some v => .ok (.boolV (if strict then numLt u v else numLe u v))
      | _, _ => .error (.typeError "unorderable types")

/-- Left fold of a fallible binary operation (`functools.reduce`). -/
def foldValues (f : Value → Value → Except EvalErr Value) : Value → List Value → Except EvalErr Value
  | a, [] => .ok a
  | a, x :: xs =>
      match f a x with
      | .error e => .error e
      | .ok b => foldValues f b xs

/-- `sum(y)`: fold `op.add` starting from the int `0`. -/
def sumValues (ys : List Value) : Except EvalErr Value :=
  foldValues pyAdd (.int 0) ys

/-- Application of a modelled builtin to already-evaluated arguments,
mirroring the lambdas installed by `standard_env`.  Wrong argument counts
for the fixed-arity builtins are the host `TypeError` CPython raises. -/
def primApply : Prim → List Value → Except EvalErr Value
  | .add, [] => .error (.typeError "reduce of empty iterable with no initial value")
  | .add, x :: xs => foldValues pyAdd x xs
  | .mul, [] => .error (.typeError "reduce of empty iterable with no initial value")
  | .mul, x :: xs => foldValues pyMul x xs
  | .sub, [] => .error (.typeError "missing required positional argument")
  | .sub, [x] => .ok x
  | .sub, x :: ys =>
      (match sumValues ys with
       | .error e => .error e
       | .ok total => pySub x total)
  | .div, [] => .error (.typeError "missing required positional argument")
  | .div, [x] => .ok x
  | .div, x :: ys => foldValues pyDiv x ys
  | .gt, [a, b] => pyCompare false true a b
  | .gt, _ => .error (.typeError "argument count")
  | .lt, [a, b] => pyCompare true true a b
  | .lt, _ => .error (.typeError "argument count")
  | .ge, [a, b] => pyCompare false false a b
  | .ge, _ => .error (.typeError "argument count")
  | .le, [a, b] => pyCompare true false a b
  | .le, _ => .error (.typeError "argument count")
  | .eqP, [a, b] => .ok (.boolV (pyEq a b))
  | .eqP, _ => .error (.typeError "argument count")
  | .equal, [a, b] => .ok (.boolV (pyEq a b))
  | .equal, _ => .error (.typeError "argument count")
  | .absP, [v] =>
      (match asNum v with
       | some (.i n) => .ok (.int n.natAbs)
       | some (.f (.finite q)) => .ok (.float (.finite |q|))
       | some (.f .nan) => .ok (.float .nan)
       | some (.f _) => .ok (.float .inf)
       | none => .error (.typeError "bad operand type for abs"))
  | .absP, _ => .error (.typeError "argument count")
  | .appendP, [a, b] => pyAdd a b
  | .appendP, _ => .error (.typeError "argument count")
  | .begin, xs =>
      (match xs.getLast? with
       | some v => .ok v
       | none => .error .indexError)
  | .car, [.listV (x :: _)] => .ok x
  | .car, [.listV []] => .error .indexError
  | .car, [.str s] =>
      (match s.toList with
       | c :: _ => .ok (.str (String.mk [c]))
       | [] => .error .indexError)
  | .car, [_] => .error (.typeError "object is not subscriptable")
  | .car, _ => .error (.typeError "argument count")
  | .cdr, [.listV xs] => .ok (.listV xs.tail)
  | .cdr, [.str s] => .ok (.str (String.mk s.toList.tail))
  | .cdr, [_] => .error (.typeError "object is not subscriptable")
  | .cdr, _ => .error (.typeError "argument count")
  | .cons, [x, .listV ys] => .ok (.listV (x :: ys))
  | .cons, [_, _] => .error (.typeError "can only concatenate list to list")
  | .cons, _ => .error (.typeError "argument count")
  | .lengthP, [.listV xs] => .ok (.int xs.length)
  | .lengthP, [.str s] => .ok (.int s.length)
  | .lengthP, [_] => .error (.typeError "object has no len")
  | .lengthP, _ => .error (.typeError "argument count")
  | .listMk, xs => .ok (.listV xs)
  | .listP, [v] =>
      .ok (.boolV (match v with | .listV _ => true | _ => false))
  | .listP, _ => .error (.typeError "argument count")
  | .notP, [v] => .ok (.boolV (!truthy v))
  | .notP, _ => .error (.typeError "argument count")
  | .nullP, [v] => .ok (.boolV (pyEq v (.listV [])))
  | .nullP, _ => .error (.typeError "argument count")
  | .numberP, [v] =>
      .ok (.boolV (match v with | .int _ => true | .float _ => true | .boolV _ => true | _ => false))
  | .numberP, _ => .error (.typeError "argument count")
  | .procedureP, [v] =>
      .ok (.boolV (match v with | .prim _ => true | .closure _ _ _ => true | _ => false))
  | .procedureP, _ => .error (.typeError "argument count")
  | .symbolP, [v] =>
      .ok (.boolV (match v with | .str _ => true | _ => false))
  | .symbolP, _ => .error (.typeError "argument count")

/-! ## The evaluator -/

/-- Parameter names of a lambda: the source stores the raw Expression and
only consumes it at call time via `zip(params, args)`; the model requires
the conventional shape (a list of symbols) and flags anything else as an
unmodeled host corner. -/
def paramNames : Expr → Option (List String)
  | .list es => symNames es
  | _ => none
where
  symNames : List Expr → Option (List String)
  | [] => some []
  | .sym s :: rest =>
      match symNames rest with
      | some names => some (s :: names)
      | none => none
  | _ => none

/-- `dict(zip(params, args))`: positional binding, silently truncating at
the shorter sequence, later duplicates overwriting earlier ones. -/
def bindParams (names : List String) (vals : List Value) : List (String × Value) :=
  (names.zip vals).foldl (fun t kv => setTable t kv.1 kv.2) []

/-- One unit of work for the interpreter: evaluate one Expression,
evaluate an argument list left-to-right, or apply an already-evaluated
procedure to already-evaluated arguments.  Merging the three mutually
recursive pieces of the Python `evaluate` into one task-driven function,
structural in the budget, keeps the interpreter kernel-reducible. -/
inductive Task where
  | eval (e : Expr) (env : Nat)
  | evalList (es : List Expr) (env : Nat)
  | apply (f : Value) (vals : List Value)

/-- Result of a task: a single value for `eval`/`apply`, a value list for
`evalList`. -/
inductive TRes where
  | val (v : Value)
  | vals (vs : List Value)

/-- Read a task result as one value (an `eval`/`apply` task always
produces `val`; the default is never consulted). -/
def asVal : TRes → Value
  | .val v => v
  | .vals _ => .pyNone

/-- Read a task result as a value list (an `evalList` task always produces
`vals`; the default is never consulted). -/
def asVals : TRes → List Value
  | .vals vs => vs
  | .val v => [v]

/-- Model of `evaluate(x, env)` together with its argument-list
comprehension and its `proc(*vals)` call, as one task-driven recursion.

The store is threaded explicitly and returned also on error (Python
mutations persist when an exception is raised).  The branch order and the
unpacking errors mirror the source: symbols resolve through `find`,
non-lists are constants, an empty list fails the `op, *args = x`
destructuring with a host `ValueError`, the special forms are dispatched
on the head before general application, and application evaluates the
head, then the arguments left-to-right, then calls the procedure — for a
closure by allocating one fresh `Env(params, args, outer)` frame.  Note
there is no arity check anywhere: the parameters are simply zipped with
the arguments. -/
def evalT : Nat → Task → State → State × Except EvalErr TRes
  | 0, _, s => (s, .error .fuelOut)
  | fuel + 1, .eval x env, s =>
      (match x with
       | .sym v =>
           (match findEnv s env v with
            | none => (s, .error (.nameError v))
            | some i => (s, .ok (.val (getVar s i v))))
       | .int n => (s, .ok (.val (.int n)))
       | .float f => (s, .ok (.val (.float f)))
       | .list [] => (s, .error (.valueError "not enough values to unpack"))
       | .list (h :: args) =>
           match h with
           | .sym "quote" =>
               (match args with
                | [] => (s, .error .indexError)
                | a :: _ => (s, .ok (.val (exprToValue a))))
           | .sym "if" =>
               (match args with
                | [test, conseq, alt] =>
                    (match evalT fuel (.eval test env) s with
                     | (s1, .error e) => (s1, .error e)
                     | (s1, .ok tv) =>
                         evalT fuel (.eval (if truthy (asVal tv) then conseq else alt) env) s1)
                | _ => (s, .error (.valueError "not enough values to unpack")))
           | .sym "define" =>
               (match args with
                | [v, e] =>
                    (match v with
                     | .sym name =>
                         (match evalT fuel (.eval e env) s with
                          | (s1, .error err) => (s1, .error err)
                          | (s1, .ok val) => (setVar s1 env name (asVal val), .ok (.val .pyNone)))
                     | _ => (s, .error (.unmodeled "non-symbol define target")))
                | _ => (s, .error (.valueError "not enough values to unpack")))
           | .sym "set!" =>
               (match args with
                | [v, e] =>
                    (match v with
                     | .sym name =>
                         (match findEnv s env name with
                          | none => (s, .error (.nameError name))
                          | some _ =>
                              (match evalT fuel (.eval e env) s with
                               | (s1, .error err) => (s1, .error err)
                               | (s1, .ok val) =>
                                   (match findEnv s1 env name with
                                    | some j => (setVar s1 j name (asVal val), .ok (.val .pyNone))
                                    | none => (s1, .error (.typeError "item assignment on None")))))
                     | _ => (s, .error (.unmodeled "non-symbol set! target")))
                | _ => (s, .error (.valueError "not enough values to unpack")))
           | .sym "lambda" =>
               (match args with
                | [ps, body] => (s, .ok (.val (.closure ps body env)))
                | _ => (s, .error (.valueError "not enough values to unpack")))
           | _ =>
               match evalT fuel (.eval h env) s with
               | (s1, .error e) => (s1, .error e)
               | (s1, .ok procv) =>
                   match evalT fuel (.evalList args env) s1 with
                   | (s2, .error e) => (s2, .error e)
                   | (s2, .ok argv) => evalT fuel (.apply (asVal procv) (asVals argv)) s2)
  | fuel + 1, .evalList es env, s =>
      (match es with
       | [] => (s, .ok (.vals []))
       | e :: rest =>
           match evalT fuel (.eval e env) s with
           | (s1, .error err) => (s1, .error err)
           | (s1, .ok v) =>
               match evalT fuel (.evalList rest env) s1 with
               | (s2, .error err) => (s2, .error err)
               | (s2, .ok vs) => (s2, .ok (.vals (asVal v :: asVals vs))))
  | fuel + 1, .apply f vals, s =>
      (match f with
       | .prim p =>
           (match primApply p vals with
            | .error e => (s, .error e)
            | .ok v => (s, .ok (.val v)))
       | .closure ps body enclosing =>
           (match paramNames ps with
            | some names =>
                evalT fuel
                  (.eval body s.frames.length)
                  ⟨s.frames ++ [⟨bindParams names vals, some enclosing⟩]⟩
            | none => (s, .error (.unmodeled "non-symbol-list lambda parameters")))
       | _ => (s, .error (.typeError "object is not callable")))

/-- `evaluate(x, env)` as a value-returning wrapper over `evalT`. -/
def evaluate (fuel : Nat) (x : Expr) (env : Nat) (s : State) :
    State × Except EvalErr Value :=
  match evalT fuel (.eval x env) s with
  | (s1, .error e) => (s1, .error e)
  | (s1, .ok r) => (s1, .ok (asVal r))

/-- The argument comprehension `[evaluate(arg, env) for arg in args]` as a
wrapper over `evalT`. -/
def evalArgs (fuel : Nat) (es : List Expr) (env : Nat) (s : State) :
    State × Except EvalErr (List Value) :=
  match evalT fuel (.evalList es env) s with
  | (s1, .error e) => (s1, .error e)
  | (s1, .ok r) => (s1, .ok (asVals r))

/-- `proc(*vals)` as a wrapper over `evalT`: builtins apply directly; a
closure allocates one fresh `Env(params, args, outer)` frame — with no
arity check, the parameters zipped against the arguments — and evaluates
its body there; anything else is the host `TypeError` for calling a
non-callable. -/
def applyProc (fuel : Nat) (f : Value) (vals : List Value) (s : State) :
    State × Except EvalErr Value :=
  match evalT fuel (.apply f vals) s with
  | (s1, .error e) => (s1, .error e)
  | (s1, .ok r) => (s1, .ok (asVal r))

/-! ## The standard environment and program runs -/

/-- The modelled rows of the builtin table `standard_env` installs (see the
section docstring for the omitted host passthroughs). -/
def standardTable : List (String × Value) :=
  [("+", .prim .add), ("-", .prim .sub), ("*", .prim .mul), ("/", .prim .div),
   (">", .prim .gt), ("<", .prim .lt), (">=", .prim .ge), ("<=", .prim .le),
   ("=", .prim .eqP), ("abs", .prim .absP), ("append", .prim .appendP),
   ("begin", .prim .begin), ("car", .prim .car), ("cdr", .prim .cdr),
   ("cons", .prim .cons), ("equal?", .prim .equal), ("length", .prim .lengthP),
   ("list", .prim .listMk), ("list?", .prim .listP), ("not", .prim .notP),
   ("null?", .prim .nullP), ("number?", .prim .numberP),
   ("procedure?", .prim .procedureP), ("symbol?", .prim .symbolP)]

/-- The store at process start: just the root environment, frame 0. -/
def initState : State :=
  ⟨[⟨standardTable, none⟩]⟩

/-- `global_env` is frame 0 of the store. -/
def globalEnvId : Nat := 0

/-- Recursion budget used for the concrete programs evaluated in this
development; each is far shallower than this. -/
def defaultFuel : Nat := 60

/-- Evaluate a sequence of top-level forms against the persistent global
environment, collecting each form's value. -/
def evalSeq : Nat → List Expr → State → State × Except EvalErr (List Value)
  | _, [], s => (s, .ok [])
  | fuel, e :: rest, s =>
      match evaluate fuel e globalEnvId s with
      | (s1, .error err) => (s1, .error err)
      | (s1, .ok v) =>
          match evalSeq fuel rest s1 with
          | (s2, .error err) => (s2, .error err)
          | (s2, .ok vs) => (s2, .ok (v :: vs))

/-- Tokenize, parse and evaluate a whole program from source text,
returning the values of its top-level forms (parse failures are reported
through the `unmodeled` channel; the programs this development runs all
parse). -/
def evalProgram (src : String) : Except EvalErr (List Value) :=
  match parse (tokenize src) with
  | .error _ => .error (.unmodeled "parse error")
  | .ok (es, _) => (evalSeq defaultFuel es initState).2

/-- As `evalProgram`, but also exposing the final store. -/
def evalProgramState (src : String) : State × Except EvalErr (List Value) :=
  match parse (tokenize src) with
  | .error _ => (initState, .error (.unmodeled "parse error"))
  | .ok (es, _) => evalSeq defaultFuel es initState

/-! ## The printer `lisp_str` -/

mutual
/-- Model of `lisp_str` on runtime values: lists render parenthesized and
space-joined, everything else via `str`.  The procedure reprs are the
host's opaque object strings; no claim prints a procedure. -/
def lispStrVal : Value → List Char
  | .listV xs => '(' :: (joinSpaceVal xs ++ [')'])
  | .int n => renderInt n
  | .float f => renderFloat f
  | .str s => s.toList
  | .boolV b => if b then "True".toList else "False".toList
  | .pyNone => "None".toList
  | .prim _ => "<built-in function>".toList
  | .closure _ _ _ => "<function <lambda>>".toList

/-- `' '.join(map(lisp_str, exp))` for values. -/
def joinSpaceVal : List Value → List Char
  | [] => []
  | [x] => lispStrVal x
  | x :: y :: rest => lispStrVal x ++ ' ' :: joinSpaceVal (y :: rest)
end

mutual
/-- `lisp_str` applied to a parsed Expression (in Python the same function
operates on the same objects; the embedding separates the two types). -/
def renderExpr : Expr → List Char
  | .list es => '(' :: (joinSpaceExpr es ++ [')'])
  | .int n => renderInt n
  | .float f => renderFloat f
  | .sym s => s.toList

/-- `' '.join(map(lisp_str, exp))` for Expressions. -/
def joinSpaceExpr : List Expr → List Char
  | [] => []
  | [x] => renderExpr x
  | x :: y :: rest => renderExpr x ++ ' ' :: joinSpaceExpr (y :: rest)
end

/-- `lisp_str` as a string-valued function on Expressions. -/
def lispStr (e : Expr) : String :=
  String.mk (renderExpr e)

/-! ## The driver `run_code` -/

/-- `str(e)` for the exceptions the driver's `except NameError` /
`except Exception` arms print.  Only the `NameError` text is fixed by the
source; the host exception texts are abbreviated stand-ins. -/
def pyStrOfErr : EvalErr → String
  | .nameError v => "Variable '" ++ v ++ "' is not defined."
  | .valueError m => m
  | .indexError => "index out of range"
  | .typeError m => m
  | .zeroDivisionError => "division by zero"
  | .unmodeled m => m
  | .fuelOut => "recursion limit"

/-- The message `parse` interpolates into the `SyntaxError` it re-raises at
top level: the inner message plus the space-joined remaining token queue. -/
def synErrMsg (e : ParseErr) (remaining : List Token) : String :=
  let base :=
    match e.kind with
    | .eof => "unexpected EOF on line " ++ toString e.line
    | .close => "unexpected ) on line " ++ toString e.line
    | .fuelOut => "recursion limit"
  base ++ " in '" ++ String.intercalate " " remaining ++ "'"

/-- The `args` tuple of the raised `SyntaxError`: Python's
`SyntaxError(f"...")` packs exactly one positional argument. -/
def synArgs (e : ParseErr) (remaining : List Token) : List String :=
  [synErrMsg e remaining]

/-- How one `run_code` iteration ends. -/
inductive Outcome where
  | finished
  | crashedIndexError
  deriving DecidableEq, Repr

/-- The `for exp in expr:` loop of `run_code`: evaluate each form, print
non-`None` values, stop at the first evaluation error. -/
def runForms : Nat → List Expr → State → List String → List String × Option EvalErr
  | _, [], _, out => (out, none)
  | fuel, e :: rest, s, out =>
      match evaluate fuel e globalEnvId s with
      | (s1, .ok v) =>
          (match v with
           | .pyNone => runForms fuel rest s1 out
           | _ => runForms fuel rest s1 (out ++ [String.mk (lispStrVal v)]))
      | (_, .error err) => (out, some err)

/-- Model of `run_code`: the printed lines and how the run ended.

The `except SyntaxError` handler's first statement is
`line_pos = e.args[1]`; the parser's `SyntaxError` carries a single
argument (`synArgs`), so the lookup at index 1 raises `IndexError` inside
the handler and the run crashes with no diagnostic printed.  The `some`
branch (an `args` tuple with two or more fields) is unreachable from
`parse` and rendered as a plain finish.  A run that survives parsing
evaluates every form against the global environment and reports the first
evaluation error as `Error at line N: <str(e)>`, where `N` is the counter
`parse` returned, then stops. -/
def runCode (code : String) : List String × Outcome :=
  match tokenize code with
  | [] => ([], .finished)
  | t :: ts =>
      match parse (t :: ts) with
      | .error (e, remaining) =>
          (match (synArgs e remaining)[1]? with
           | none => ([], .crashedIndexError)
           | some _ => ([], .finished))
      | .ok (es, ln) =>
          match runForms defaultFuel es initState [] with
          | (out, none) => (out, .finished)
          | (out, some err) =>
              (out ++ ["Error at line " ++ toString ln ++ ": " ++ pyStrOfErr err], .finished)

/-! ## Specification-side predicates

These definitions express the *spec's* vocabulary (parenthesis balance,
the host equality used for "structurally equal", the shape of atoms the
parser can produce) so the theorems below can compare the implementation
against it. -/

/-- Contribution of one token to the parenthesis depth. -/
def parenDelta (t : Token) : Int :=
  if t = "(" then 1 else if t = ")" then -1 else 0

/-- Net parenthesis depth of a token sequence. -/
def netBal (ts : List Token) : Int :=
  (ts.map parenDelta).sum

/-- Minimum over all prefixes of the running parenthesis depth (the empty
prefix contributes `0`). -/
def minPfx : List Token → Int
  | [] => 0
  | t :: ts => min 0 (parenDelta t + minPfx ts)

/-- "Every `(` has a matching later `)` and vice versa at the top level":
the running depth never goes negative and ends at zero. -/
def BalancedTok (ts : List Token) : Prop :=
  0 ≤ minPfx ts ∧ netBal ts = 0

/-- Suffix of the queue after the `)` matching one already-open paren
(depth `d ≥ 1`), if it exists; mirrors which `)` the parser's
child-collecting loop will accept. -/
def closeSplit : List Token → Nat → Option (List Token)
  | [], _ => none
  | t :: ts, d =>
      if t = ")" then (if d ≤ 1 then some ts else closeSplit ts (d - 1))
      else if t = "(" then closeSplit ts (d + 1)
      else closeSplit ts d

mutual
/-- CPython `==` on two freshly parsed Expressions — the "structural
equality" of the round-trip property.  Numbers compare by value across
`int`/`float` with `nan` unequal to everything (including a distinct copy
of itself, which is what a re-parse produces); symbols and lists compare
structurally.  (Python's element-identity shortcut inside list comparison
is not modelled: the round trip always compares distinct objects.) -/
def pyExprEq : Expr → Expr → Bool
  | .int a, .int b => a = b
  | .int a, .float g => pyFloatEq (intToPf a) g
  | .float f, .int b => pyFloatEq f (intToPf b)
  | .float f, .float g => pyFloatEq f g
  | .sym a, .sym b => a = b
  | .list as, .list bs => pyExprEqList as bs
  | _, _ => false

def pyExprEqList : List Expr → List Expr → Bool
  | [], [] => true
  | a :: as, b :: bs => pyExprEq a b && pyExprEqList as bs
  | _, _ => false
end

mutual
/-- No `nan` atom anywhere in the Expression. -/
def noNanE : Expr → Bool
  | .float .nan => false
  | .list es => noNanEList es
  | _ => true

def noNanEList : List Expr → Bool
  | [] => true
  | e :: rest => noNanE e && noNanEList rest
end

/-- A float atom the renderer can write back faithfully: a finite value
with a decimal-representable denominator (every value `float(token)` can
produce except `nan`, which re-parses but breaks the host equality). -/
def goodFloat : PyFloat → Bool
  | .finite q => decimalDenom q
  | .nan => false
  | _ => true

/-- A symbol the tokenizer re-reads as one token and `atom` keeps as a
symbol: nonempty, free of token-breaking characters, and not parseable as
a numeric literal.  Every symbol the parser produces has this shape. -/
def goodSym (s : String) : Bool :=
  !s.toList.isEmpty ∧ s.toList.all (fun c => !isAtomBreak c) ∧
    (parseInt s.toList).isNone ∧ (parseFloat s.toList).isNone

mutual
/-- All atoms of the Expression are faithfully re-renderable (the shape of
every `nan`-free parser output; see `parsedGoodAtoms`). -/
def goodAtoms : Expr → Bool
  | .int _ => true
  | .float f => goodFloat f
  | .sym s => goodSym s
  | .list es => goodAtomsList es

def goodAtomsList : List Expr → Bool
  | [] => true
  | e :: rest => goodAtoms e && goodAtomsList rest
end

mutual
/-- The token sequence the tokenizer recovers from a rendered Expression:
atoms become single tokens, lists become `(` tokens children `)`. -/
def renderTokens : Expr → List Token
  | .int n => [String.mk (renderInt n)]
  | .float f => [String.mk (renderFloat f)]
  | .sym s => [s]
  | .list es => "(" :: (renderTokensList es ++ [")"])

def renderTokensList : List Expr → List Token
  | [] => []
  | e :: rest => renderTokens e ++ renderTokensList rest
end

/-! ## Helper lemmas about the tokenizer's workers -/

theorem takeAtom_snd_length (l : List Char) : (takeAtom l).2.length ≤ l.length := by
  induction l with
  | nil => simp [takeAtom]
  | cons c rest ih =>
      simp only [takeAtom]
      by_cases h : isAtomBreak c
      · simp [h]
      · simp only [h, Bool.false_eq_true, if_false]
        simpa using Nat.le_succ_of_le ih

theorem takeAtom_cons_notBreak (c : Char) (rest : List Char) (h : isAtomBreak c = false) :
    takeAtom (c :: rest) = ((c :: (takeAtom rest).1), (takeAtom rest).2) := by
  simp [takeAtom, h]

theorem dropWhileLengthLe (p : Char → Bool) (l : List Char) :
    (l.dropWhile p).length ≤ l.length := by
  induction l with
  | nil => simp
  | cons c rest ih =>
      by_cases h : p c
      · rw [List.dropWhile_cons_of_pos h]; exact Nat.le_succ_of_le ih
      · rw [List.dropWhile_cons_of_neg (by simpa using h)]

theorem dropComment_cons_length (c : Char) (rest : List Char) :
    (dropComment (c :: rest)).length ≤ rest.length := by
  unfold dropComment
  have h := dropWhileLengthLe (fun c => decide (c ≠ '\n')) (c :: rest)
  rcases hd : (c :: rest).dropWhile (fun c => decide (c ≠ '\n')) with _ | ⟨x, xs⟩
  · simp
  · rw [hd] at h
    simp only [List.length_cons] at h ⊢
    omega

/-- `zip` ignores everything past the length of its left operand. -/
theorem zip_take_len {α β : Type} (xs : List α) (ys : List β) :
    xs.zip ys = xs.zip (ys.take xs.length) := by
  induction xs generalizing ys with
  | nil => simp
  | cons x xs ih =>
      cases ys with
      | nil => simp
      | cons y ys => simpa using ih ys

set_option maxRecDepth 100000

/-! ## Claim C9: evaluating `()` -/

/-- C9: evaluating the empty list Expression `()` in any environment and
any store fails with the host `ValueError` raised by the `op, *args = x`
destructuring — an error outside the interpreter's own taxonomy, whose
only deliberate evaluation error is `NameError` — and the store is
returned unchanged. -/
theorem c9_empty_list_host_error (fuel env : Nat) (s : State) :
    evaluate (fuel + 1) (.list []) env s =
      (s, .error (.valueError "not enough values to unpack")) := by
  simp [evaluate, evalT]

/-! ## Claim C10: `set!` on an unbound symbol -/

/-- C10: `(set! sym exp)` with `sym` absent from the whole chain fails with
the unbound-variable `NameError` before evaluating `exp`: the result is
the same for every `exp`, and the store comes back exactly as it went in
(no Environment is touched). -/
theorem c10_set_unbound_no_eval (fuel : Nat) (x : String) (e : Expr) (env : Nat) (s : State)
    (h : findEnv s env x = none) :
    evaluate (fuel + 1) (.list [.sym "set!", .sym x, e]) env s =
      (s, .error (.nameError x)) := by
  simp [evaluate, evalT, h]

/-- Witness for C10 at a concrete store: the single-frame store whose
global table is empty, a variable `y` it does not bind, and an `exp` that
would change the store if it were evaluated. -/
theorem c10_set_unbound_no_eval_witness :
    evaluate 5 (.list [.sym "set!", .sym "y", .list [.sym "define", .sym "z", .int 1]]) 0
        ⟨[⟨[], none⟩]⟩ =
      (⟨[⟨[], none⟩]⟩, .error (.nameError "y")) :=
  c10_set_unbound_no_eval 4 "y" (.list [.sym "define", .sym "z", .int 1]) 0 ⟨[⟨[], none⟩]⟩ rfl

/-! ## Claim C1: arity of closure application -/

/-- C1 counterexample: the closure `(lambda (x) 42)` applied to the two
arguments `1 2` — an arity mismatch the claim says must fail with
`ArityMismatch` before the body runs — instead succeeds and returns the
body's value `42`: `Env.__init__` zips the one parameter with the two
arguments and silently drops the extra one. -/
theorem c1_arity_counterexample :
    evalProgram "((lambda (x) 42) 1 2)" = .ok [.int 42] := by
  rfl

/-- C1 as amended: applying a Closure performs no arity check at all; the
parameters are bound to the arguments positionally by `zip`, so arguments
beyond the parameter count are ignored — the application behaves exactly
as if the argument list had been truncated to the parameter count — and
evaluation proceeds to the body. -/
theorem c1_zip_truncation (fuel : Nat) (ps body : Expr) (envId : Nat)
    (vals : List Value) (s : State) (names : List String)
    (h : paramNames ps = some names) :
    applyProc fuel (.closure ps body envId) vals s =
      applyProc fuel (.closure ps body envId) (vals.take names.length) s := by
  cases fuel with
  | zero => rfl
  | succ n =>
      have hz : names.zip vals = names.zip (vals.take names.length) :=
        zip_take_len names vals
      simp only [applyProc, evalT, h, bindParams, hz]

/-- Witness for C1's amended theorem: one parameter, two arguments — both
applications evaluate the body with `x ↦ 1` and the `2` discarded. -/
theorem c1_zip_truncation_witness :
    applyProc 3 (.closure (.list [.sym "x"]) (.sym "x") 0) [.int 1, .int 2] ⟨[⟨[], none⟩]⟩ =
      applyProc 3 (.closure (.list [.sym "x"]) (.sym "x") 0)
        ([Value.int 1, Value.int 2].take ["x"].length) ⟨[⟨[], none⟩]⟩ :=
  c1_zip_truncation 3 (.list [.sym "x"]) (.sym "x") 0 [.int 1, .int 2] ⟨[⟨[], none⟩]⟩ ["x"] rfl

/-! ## Claim C2: the count returned by `parse` -/

/-- C2 counterexample: one well-formed top-level form, for which the claim
says the returned count is `1`; `parse` returns its `line_number` counter,
which started at 1 and was incremented once, so the count is `2`. -/
theorem c2_count_counterexample :
    parse ["1"] = .ok ([Expr.int 1], 2) ∧ [Expr.int 1].length = 1 :=
  ⟨rfl, rfl⟩

/-- The top-level loop returns its starting counter plus the number of
forms it consumed. -/
theorem parseTop_count (fuel : Nat) :
    ∀ (ts : List Token) (ln : Nat) (es : List Expr) (k : Nat),
      parseTop fuel ts ln = .ok (es, k) → k = ln + es.length := by
  induction fuel with
  | zero => intro ts ln es k h; simp [parseTop] at h
  | succ fuel ih =>
      intro ts ln es k h
      cases ts with
      | nil =>
          simp only [parseTop, Except.ok.injEq, Prod.mk.injEq] at h
          rcases h with ⟨h1, h2⟩
          subst h1; subst h2
          simp
      | cons t ts =>
          simp only [parseTop, parseRec] at h
          rcases hrec : parseGo (fuel + 1) .one (t :: ts) ln with e | ⟨e, ts2⟩
          · rw [hrec] at h
            cases h
          · rw [hrec] at h
            dsimp only at h
            rcases htop : parseTop fuel ts2 (ln + 1) with e2 | ⟨es2, ln2⟩
            · rw [htop] at h; cases h
            · rw [htop] at h
              simp only [Except.ok.injEq, Prod.mk.injEq] at h
              have hcount := ih ts2 (ln + 1) es2 ln2 htop
              rcases h with ⟨h1, h2⟩
              subst h1; subst h2
              simp only [List.length_cons]
              omega

/-- C2 as amended: alongside the parsed forms, the top-level entry returns
its 1-based `line_number` counter — one more than the number of top-level
forms consumed — not that number itself. -/
theorem c2_parse_count (ts : List Token) (es : List Expr) (k : Nat)
    (h : parse ts = .ok (es, k)) : k = es.length + 1 := by
  unfold parse at h
  have := parseTop_count (parseFuel ts) ts 1 es k h
  omega

/-- Witness for C2's amended theorem at the one-form queue `["1"]`. -/
theorem c2_parse_count_witness : (2 : Nat) = [Expr.int 1].length + 1 :=
  c2_parse_count ["1"] [Expr.int 1] 2 rfl

/-! ## Claim C3: the driver's error reporting -/

/-- C3 (code bug): on the parse-errored program `"("` the driver prints
nothing and crashes.  The `except SyntaxError` handler's first statement
reads `e.args[1]`, but every `SyntaxError` the parser raises carries a
single argument (`synArgs` is a one-element list), so the handler itself
raises `IndexError` before any diagnostic is rendered — contradicting the
claim that the error kind and offending token are reported.  The second
conjunct records that the args tuple indeed never has a field at index 1. -/
theorem c3_parse_error_handler_crashes :
    runCode "(" = ([], .crashedIndexError) ∧
      ∀ (e : ParseErr) (remaining : List Token), (synArgs e remaining).length = 1 :=
  ⟨rfl, fun _ _ => rfl⟩

/-! ## Claim C4: where `set!` writes -/

/-- C4 counterexample: `sym` is first found in the global Environment (the
claim's "environment where sym was found"), yet the overwrite lands in the
call-local Environment.  In
`(define x 10)`,
`(define f (lambda (u) (begin (set! x (begin (define x 1) 2)) x)))`,
`(f 0)`, `x`:
inside the call, `find` locates `x` in the global frame — so per the
claim the global binding should become `2` — but evaluating the `set!`
value expression first runs `(define x 1)` in the call frame, the second
`find` (Python evaluates the assignment's right side before its target)
now returns the call frame, and the write goes there: `(f 0)` returns `2`
while the global `x` still prints `10`. -/
theorem c4_set_rebind_counterexample :
    evalProgram
        "(define x 10) (define f (lambda (u) (begin (set! x (begin (define x 1) 2)) x))) (f 0) x" =
      .ok [.pyNone, .pyNone, .int 2, .int 10] := by
  rfl

/-- C4 as amended: `(set! sym exp)` locates `sym` via `find`; if absent it
fails with the unbound `NameError` (and `exp` is not evaluated, see C10);
otherwise it evaluates `exp` and overwrites the binding in the Environment
located by a *second* `find` performed after that evaluation — which is
the Environment where `sym` was originally found whenever evaluating `exp`
does not itself bind `sym` at an inner level — leaves every other frame of
the store untouched, and results in `None` (Unit). -/
theorem c4_set_semantics (fuel : Nat) (x : String) (e : Expr) (env : Nat)
    (s s1 : State) (v : Value) (i j : Nat)
    (h0 : findEnv s env x = some i)
    (h1 : evaluate fuel e env s = (s1, .ok v))
    (h2 : findEnv s1 env x = some j) :
    evaluate (fuel + 1) (.list [.sym "set!", .sym x, e]) env s =
        (setVar s1 j x v, .ok .pyNone) ∧
      ∀ k, k ≠ j → (setVar s1 j x v).frames[k]? = s1.frames[k]? := by
  constructor
  · rcases hT : evalT fuel (.eval e env) s with ⟨s2, r⟩
    rw [evaluate] at h1
    rw [hT] at h1
    cases r with
    | error err => cases h1
    | ok res =>
        simp only [Except.ok.injEq, Prod.mk.injEq] at h1
        rcases h1 with ⟨hs, hv⟩
        subst hs
        subst hv
        simp [evaluate, evalT, asVal, h0, hT, h2]
  · intro k hk
    unfold setVar
    rcases hf : s1.frames[j]? with _ | fr
    · simp
    · simp only
      exact List.getElem?_set_ne (by omega)

/-- Witness for C4's amended theorem: a one-frame store binding `x ↦ 5`;
`(set! x 7)` evaluates `7` (leaving the store unchanged), re-finds `x` in
frame 0 and overwrites it there, returning `None`. -/
theorem c4_set_semantics_witness :
    evaluate 2 (.list [.sym "set!", .sym "x", .int 7]) 0 ⟨[⟨[("x", .int 5)], none⟩]⟩ =
        (setVar ⟨[⟨[("x", .int 5)], none⟩]⟩ 0 "x" (.int 7), .ok .pyNone) ∧
      ∀ k, k ≠ 0 →
        (setVar ⟨[⟨[("x", .int 5)], none⟩]⟩ 0 "x" (.int 7)).frames[k]? =
          (⟨[⟨[("x", .int 5)], none⟩]⟩ : State).frames[k]? :=
  c4_set_semantics 1 "x" (.int 7) 0 ⟨[⟨[("x", .int 5)], none⟩]⟩ ⟨[⟨[("x", .int 5)], none⟩]⟩
    (.int 7) 0 0 rfl rfl rfl

/-! ## Claim C7: closure independence -/

/-- C7: two closures produced by evaluating the same `lambda` text against
different captured Environments do not share mutable state.  Two counters
built by two calls of the same `make-counter` factory each capture their
own call frame: advancing the first twice yields `1` then `2`, and the
second — whose captured frame the first's `set!` never touched — still
yields `1` on its first advance.  (Had the state been shared, the final
call would yield `3`.) -/
theorem c7_closure_independence :
    evalProgram
        "(define make-counter (lambda (z) (lambda (w) (begin (set! z (+ z 1)) z)))) (define c1 (make-counter 0)) (define c2 (make-counter 0)) (c1 0) (c1 0) (c2 0)" =
      .ok [.pyNone, .pyNone, .pyNone, .int 1, .int 2, .int 1] := by
  rfl

/-! ## Claim C6: arithmetic -/

/-- `truediv` of a finite float by a nonzero integer. -/
theorem pfDiv_finite_int (q : ℚ) (y : Int) (hy : y ≠ 0) :
    pfDiv (.finite q) (.finite (y : ℚ)) = .ok (.finite (q / (y : ℚ))) := by
  have hnum : ((y : ℚ)).num ≠ 0 := by
    simpa [Rat.num_intCast] using hy
  simp [pfDiv, hnum, hy]

/-- Folding `truediv` over integer divisors from a float accumulator
divides by their product. -/
theorem foldValues_pyDiv (ys : List Int) :
    ∀ q : ℚ, (∀ y ∈ ys, y ≠ 0) →
      foldValues pyDiv (.float (.finite q)) (ys.map Value.int) =
        .ok (.float (.finite (q / (ys.map fun y => (y : ℚ)).prod))) := by
  induction ys with
  | nil => intro q _; simp [foldValues]
  | cons y ys ih =>
      intro q h
      have hy : y ≠ 0 := h y (by simp)
      have hstep : pyDiv (.float (.finite q)) (.int y) = .ok (.float (.finite (q / (y : ℚ)))) := by
        simp [pyDiv, asNum, intToPf, pfDiv_finite_int q y hy]
      simp only [List.map_cons, foldValues, hstep]
      rw [ih (q / (y : ℚ)) (fun z hz => h z (by simp [hz]))]
      simp [div_div]

/-- C6: the four arithmetic examples evaluate as specified — `(+ 1 2 3)`
to `6`, `(* 2 3 4)` to `24`, `(- 10 1 2)` to `7`, `(/ 10 2)` to the
*float* `5.0` — and in general the `/` builtin applied to an integer
dividend and any nonempty list of nonzero integer divisors produces a
float-tagged, non-truncating exact quotient (the model keeps quotients
exact; CPython rounds them to the nearest double).  Per the spec's own
unary-identity rule, `(/ x)` with no divisor returns `x` unchanged and is
not a division. -/
theorem c6_arithmetic :
    evalProgram "(+ 1 2 3)" = .ok [.int 6] ∧
    evalProgram "(* 2 3 4)" = .ok [.int 24] ∧
    evalProgram "(- 10 1 2)" = .ok [.int 7] ∧
    (∃ q : ℚ, evalProgram "(/ 10 2)" = .ok [.float (.finite q)] ∧ q = 5) ∧
    ∀ (x : Int) (ys : List Int), ys ≠ [] → (∀ y ∈ ys, y ≠ 0) →
      primApply .div (Value.int x :: ys.map Value.int) =
        .ok (.float (.finite ((x : ℚ) / (ys.map fun y => (y : ℚ)).prod))) := by
  refine ⟨rfl, rfl, rfl,
    ⟨_, rfl, by
      norm_num [show parseNatDigits ['1', '0'] = 10 from rfl,
        show parseNatDigits ['2'] = 2 from rfl]⟩, ?_⟩
  intro x ys hne h
  cases ys with
  | nil => cases hne rfl
  | cons y ys =>
      have hy : y ≠ 0 := h y (by simp)
      have hstep : pyDiv (.int x) (.int y) = .ok (.float (.finite ((x : ℚ) / (y : ℚ)))) := by
        simp [pyDiv, asNum, intToPf, pfDiv_finite_int (x : ℚ) y hy]
      simp only [List.map_cons, primApply, foldValues, hstep]
      rw [foldValues_pyDiv ys ((x : ℚ) / (y : ℚ)) (fun z hz => h z (by simp [hz]))]
      simp [div_div]

/-- Witness for C6's general division clause: `(/ 10 4)` — a
non-truncating quotient on integer operands, tagged float. -/
theorem c6_arithmetic_witness :
    primApply .div [Value.int 10, Value.int 4] =
      .ok (.float (.finite (((10 : Int) : ℚ) / ([(4 : Int)].map fun y => (y : ℚ)).prod))) :=
  c6_arithmetic.2.2.2.2 10 [4] (by simp) (by simp)

/-! ## Claim C5: parenthesis balance

The spec's balance condition is expressed by `minPfx`/`netBal`; the
parser's behaviour inside a list is characterized against `closeSplit`
(the suffix after the matching close paren), and the top level is then
classified by the sign of the minimum prefix depth and the net depth. -/

theorem minPfx_nonpos (ts : List Token) : minPfx ts ≤ 0 := by
  cases ts with
  | nil => simp [minPfx]
  | cons t ts => simp [minPfx]

theorem netBal_append (a b : List Token) : netBal (a ++ b) = netBal a + netBal b := by
  simp [netBal]

theorem netBal_cons (t : Token) (ts : List Token) :
    netBal (t :: ts) = parenDelta t + netBal ts := by
  simp [netBal]

theorem minPfx_append (a b : List Token) :
    minPfx (a ++ b) = min (minPfx a) (netBal a + minPfx b) := by
  induction a with
  | nil =>
      have := minPfx_nonpos b
      simp [minPfx, netBal]
      omega
  | cons t a ih =>
      simp only [List.cons_append, minPfx, netBal_cons, List.append_eq]
      rw [ih]
      omega

theorem closeSplit_length (ts : List Token) :
    ∀ (d : Nat) (r : List Token), closeSplit ts d = some r → r.length < ts.length := by
  induction ts with
  | nil => intro d r h; simp [closeSplit] at h
  | cons t ts ih =>
      intro d r h
      rw [closeSplit] at h
      by_cases h1 : t = ")"
      · rw [if_pos h1] at h
        by_cases h2 : d ≤ 1
        · rw [if_pos h2] at h
          cases h
          simp
        · rw [if_neg h2] at h
          exact Nat.lt_succ_of_lt (ih (d - 1) r h)
      · rw [if_neg h1] at h
        by_cases h2 : t = "("
        · rw [if_pos h2] at h
          exact Nat.lt_succ_of_lt (ih (d + 1) r h)
        · rw [if_neg h2] at h
          exact Nat.lt_succ_of_lt (ih d r h)

/-- Closing out of `d + 1` open parens first closes out of the innermost
one, then out of the remaining `d`. -/
theorem closeSplit_comp (n : Nat) :
    ∀ (ts : List Token), ts.length ≤ n → ∀ (d : Nat), 1 ≤ d →
      closeSplit ts (d + 1) = (closeSplit ts 1).bind (fun r => closeSplit r d) := by
  induction n with
  | zero =>
      intro ts h d hd
      have : ts = [] := List.length_eq_zero.mp (Nat.le_zero.mp h)
      subst this
      simp [closeSplit]
  | succ n ih =>
      intro ts h d hd
      cases ts with
      | nil => simp [closeSplit]
      | cons t ts =>
          simp only [List.length_cons, Nat.succ_le_succ_iff] at h
          rw [closeSplit]
          by_cases h1 : t = ")"
          · have hd1 : ¬d + 1 ≤ 1 := by omega
            rw [if_pos h1, if_neg hd1]
            conv_rhs => rw [closeSplit, if_pos h1, if_pos (by omega : (1 : Nat) ≤ 1)]
            simp only [Option.some_bind]
            congr 1
          · by_cases h2 : t = "("
            · rw [if_neg h1, if_pos h2]
              conv_rhs => rw [closeSplit, if_neg h1, if_pos h2]
              have e1 : closeSplit ts (d + 1 + 1) =
                  (closeSplit ts 1).bind (fun r => closeSplit r (d + 1)) :=
                ih ts h (d + 1) (by omega)
              have e2 : closeSplit ts (1 + 1) =
                  (closeSplit ts 1).bind (fun r => closeSplit r 1) :=
                ih ts h 1 (by omega)
              rw [e1, e2]
              rcases hm : closeSplit ts 1 with _ | m
              · simp
              · simp only [Option.some_bind]
                have hmlen : m.length ≤ n := by
                  have := closeSplit_length ts 1 m hm
                  omega
                exact ih m hmlen d hd
            · rw [if_neg h1, if_neg h2]
              conv_rhs => rw [closeSplit, if_neg h1, if_neg h2]
              exact ih ts h d hd

/-- A successful `closeSplit` at depth 1 exhibits the consumed segment:
balanced-inside content followed by the matching `)`. -/
theorem closeSplit_some (n : Nat) :
    ∀ (ts : List Token), ts.length ≤ n → ∀ (r : List Token), closeSplit ts 1 = some r →
      ∃ c, ts = c ++ ")" :: r ∧ netBal c = 0 ∧ 0 ≤ minPfx c := by
  induction n with
  | zero =>
      intro ts h r hr
      have : ts = [] := List.length_eq_zero.mp (Nat.le_zero.mp h)
      subst this
      simp [closeSplit] at hr
  | succ n ih =>
      intro ts h r hr
      cases ts with
      | nil => simp [closeSplit] at hr
      | cons t ts =>
          simp only [List.length_cons, Nat.succ_le_succ_iff] at h
          rw [closeSplit] at hr
          by_cases h1 : t = ")"
          · rw [if_pos h1, if_pos (by omega : (1 : Nat) ≤ 1)] at hr
            cases hr
            exact ⟨[], by simp [h1], by simp [netBal], by simp [minPfx]⟩
          · by_cases h2 : t = "("
            · rw [if_neg h1, if_pos h2] at hr
              rw [closeSplit_comp ts.length ts (by omega) 1 (by omega)] at hr
              rcases hm : closeSplit ts 1 with _ | m
              · rw [hm] at hr; cases hr
              · rw [hm] at hr
                simp only [Option.some_bind] at hr
                obtain ⟨c1, hc1, hn1, hm1⟩ := ih ts h m hm
                have hmlen : m.length ≤ n := by
                  have := closeSplit_length ts 1 m hm
                  omega
                obtain ⟨c2, hc2, hn2, hm2⟩ := ih m hmlen r hr
                subst h2
                refine ⟨"(" :: c1 ++ ")" :: c2, ?_, ?_, ?_⟩
                · simp [hc1, hc2]
                · have e : netBal (("(" :: c1) ++ ")" :: c2) =
                      (parenDelta "(" + netBal c1) + (parenDelta ")" + netBal c2) := by
                    rw [netBal_append, netBal_cons, netBal_cons]
                  rw [e, hn1, hn2]
                  rfl
                · show (0 : Int) ≤ min 0 (1 + minPfx (c1 ++ ")" :: c2))
                  rw [minPfx_append c1 (")" :: c2), hn1]
                  have hin : minPfx (")" :: c2) = min 0 (-1 + minPfx c2) := rfl
                  rw [hin]
                  omega
            · rw [if_neg h1, if_neg h2] at hr
              obtain ⟨c, hc, hn, hm⟩ := ih ts h r hr
              refine ⟨t :: c, by simp [hc], ?_, ?_⟩
              · have hdt : parenDelta t = 0 := by simp [parenDelta, h1, h2]
                simp [netBal_cons, hdt, hn]
              · have hdt : parenDelta t = 0 := by simp [parenDelta, h1, h2]
                simp only [minPfx, hdt]
                omega

/-- A failed `closeSplit` at depth `d` means the running depth never
dropped by `d`: both the minimum prefix and the net stay above `-d`. -/
theorem closeSplit_none (ts : List Token) :
    ∀ d : Nat, 1 ≤ d → closeSplit ts d = none →
      -(d : Int) < minPfx ts ∧ -(d : Int) < netBal ts := by
  induction ts with
  | nil =>
      intro d hd _
      simp [minPfx, netBal]
      omega
  | cons t ts ih =>
      intro d hd h
      rw [closeSplit] at h
      by_cases h1 : t = ")"
      · rw [if_pos h1] at h
        by_cases h2 : d ≤ 1
        · rw [if_pos h2] at h; cases h
        · rw [if_neg h2] at h
          obtain ⟨hm, hn⟩ := ih (d - 1) (by omega) h
          have hdt : parenDelta t = -1 := by simp [parenDelta, h1]
          have hcast : ((d - 1 : Nat) : Int) = (d : Int) - 1 := by omega
          rw [hcast] at hm hn
          constructor
          · simp only [minPfx, hdt]; omega
          · simp only [netBal_cons, hdt]; omega
      · by_cases h2 : t = "("
        · rw [if_neg h1, if_pos h2] at h
          obtain ⟨hm, hn⟩ := ih (d + 1) (by omega) h
          have hdt : parenDelta t = 1 := by simp [parenDelta, h2]
          have hcast : ((d + 1 : Nat) : Int) = (d : Int) + 1 := by omega
          rw [hcast] at hm hn
          constructor
          · simp only [minPfx, hdt]; omega
          · simp only [netBal_cons, hdt]; omega
        · rw [if_neg h1, if_neg h2] at h
          obtain ⟨hm, hn⟩ := ih d hd h
          have hdt : parenDelta t = 0 := by simp [parenDelta, h1, h2]
          constructor
          · simp only [minPfx, hdt]; omega
          · simp only [netBal_cons, hdt]; omega

/-- Behaviour of the child-collecting loop against `closeSplit`: entered
with the content `ts` of an open list, it succeeds exactly when the
matching `)` exists, consuming through it, and otherwise exhausts the
queue and reports `unexpected EOF`; it never reports a stray `)`. -/
theorem parseList_spec (n : Nat) :
    ∀ (ts : List Token), ts.length ≤ n → ∀ (fuel ln : Nat) (acc : List Expr),
      2 * ts.length + 2 ≤ fuel →
      (∀ r, closeSplit ts 1 = some r →
        ∃ es, parseGo fuel (.children acc) ts ln = .ok (.list es, r)) ∧
      (closeSplit ts 1 = none →
        parseGo fuel (.children acc) ts ln = .error (⟨.eof, ln⟩, [])) := by
  induction n with
  | zero =>
      intro ts h fuel ln acc hf
      have hts : ts = [] := List.length_eq_zero.mp (Nat.le_zero.mp h)
      subst hts
      constructor
      · intro r hr; simp [closeSplit] at hr
      · intro _
        cases fuel with
        | zero => omega
        | succ f => rfl
  | succ n ih =>
      intro ts h fuel ln acc hf
      cases ts with
      | nil =>
          constructor
          · intro r hr; simp [closeSplit] at hr
          · intro _
            cases fuel with
            | zero => omega
            | succ f => rfl
      | cons t ts =>
          simp only [List.length_cons, Nat.succ_le_succ_iff] at h
          simp only [List.length_cons] at hf
          cases fuel with
          | zero => omega
          | succ f =>
          by_cases h1 : t = ")"
          · subst h1
            constructor
            · intro r hr
              rw [closeSplit, if_pos rfl, if_pos (by omega : (1 : Nat) ≤ 1)] at hr
              cases hr
              exact ⟨acc, by rw [parseGo, if_pos rfl]⟩
            · intro hr
              rw [closeSplit, if_pos rfl, if_pos (by omega : (1 : Nat) ≤ 1)] at hr
              cases hr
          · cases f with
            | zero => omega
            | succ f2 =>
            by_cases h2 : t = "("
            · subst h2
              have hone : parseGo (f2 + 1) .one ("(" :: ts) ln =
                  parseGo f2 (.children []) ts ln := by
                rw [parseGo, if_pos rfl]
              have hcs : closeSplit ("(" :: ts) 1 =
                  (closeSplit ts 1).bind fun r => closeSplit r 1 := by
                rw [closeSplit, if_neg h1, if_pos rfl]
                exact closeSplit_comp ts.length ts le_rfl 1 le_rfl
              have hinner := ih ts h f2 ln [] (by omega)
              rcases hm : closeSplit ts 1 with _ | m
              · have herr := hinner.2 hm
                constructor
                · intro r hr
                  rw [hcs, hm] at hr
                  cases hr
                · intro _
                  rw [parseGo, if_neg h1, hone, herr]
              · obtain ⟨es1, hes1⟩ := hinner.1 m hm
                have hmlen : m.length ≤ n := by
                  have := closeSplit_length ts 1 m hm
                  omega
                have hcont := ih m hmlen (f2 + 1) ln (acc ++ [Expr.list es1])
                  (by have := closeSplit_length ts 1 m hm; omega)
                constructor
                · intro r hr
                  rw [hcs, hm] at hr
                  simp only [Option.some_bind] at hr
                  obtain ⟨es2, hes2⟩ := hcont.1 r hr
                  refine ⟨es2, ?_⟩
                  rw [parseGo, if_neg h1, hone, hes1]
                  exact hes2
                · intro hr
                  rw [hcs, hm] at hr
                  simp only [Option.some_bind] at hr
                  have herr2 := hcont.2 hr
                  rw [parseGo, if_neg h1, hone, hes1]
                  exact herr2
            · have hone : parseGo (f2 + 1) .one (t :: ts) ln = .ok (atomExpr t, ts) := by
                rw [parseGo, if_neg h2, if_neg h1]
              have hcs : closeSplit (t :: ts) 1 = closeSplit ts 1 := by
                rw [closeSplit, if_neg h1, if_neg h2]
              have hcont := ih ts h (f2 + 1) ln (acc ++ [atomExpr t]) (by omega)
              constructor
              · intro r hr
                rw [hcs] at hr
                obtain ⟨es2, hes2⟩ := hcont.1 r hr
                refine ⟨es2, ?_⟩
                rw [parseGo, if_neg h1, hone]
                exact hes2
              · intro hr
                rw [hcs] at hr
                have herr2 := hcont.2 hr
                rw [parseGo, if_neg h1, hone]
                exact herr2

/-- Top-level classification of a parse run by the sign structure of the
parenthesis depth: balanced queues succeed (with the counter from C2),
a prefix that dips below depth 0 is an `unexpected )`, and a queue that
stays nonnegative but ends at positive depth is an `unexpected EOF`. -/
theorem parseTop_spec (n : Nat) :
    ∀ (ts : List Token), ts.length ≤ n → ∀ (fuel ln : Nat), 2 * ts.length + 4 ≤ fuel →
      (BalancedTok ts → ∃ es, parseTop fuel ts ln = .ok (es, ln + es.length)) ∧
      (minPfx ts < 0 → ∃ ln2 rest, parseTop fuel ts ln = .error (⟨.close, ln2⟩, rest)) ∧
      (0 ≤ minPfx ts → netBal ts ≠ 0 → ∃ ln2, parseTop fuel ts ln = .error (⟨.eof, ln2⟩, [])) := by
  induction n with
  | zero =>
      intro ts h fuel ln hf
      have hts : ts = [] := List.length_eq_zero.mp (Nat.le_zero.mp h)
      subst hts
      cases fuel with
      | zero => omega
      | succ f =>
          refine ⟨fun _ => ⟨[], by simp [parseTop]⟩, ?_, ?_⟩
          · intro hm; simp [minPfx] at hm
          · intro _ hn; simp [netBal] at hn
  | succ n ih =>
      intro ts h fuel ln hf
      cases ts with
      | nil =>
          cases fuel with
          | zero => omega
          | succ f =>
              refine ⟨fun _ => ⟨[], by simp [parseTop]⟩, ?_, ?_⟩
              · intro hm; simp [minPfx] at hm
              · intro _ hn; simp [netBal] at hn
      | cons t ts2 =>
          simp only [List.length_cons, Nat.succ_le_succ_iff] at h
          simp only [List.length_cons] at hf
          cases fuel with
          | zero => omega
          | succ f =>
          by_cases h1 : t = ")"
          · subst h1
            have hrec : parseGo (f + 1) .one (")" :: ts2) ln = .error (⟨.close, ln⟩, ts2) := by
              rw [parseGo, if_neg (by simp), if_pos rfl]
            have htop : parseTop (f + 1) (")" :: ts2) ln = .error (⟨.close, ln⟩, ts2) := by
              simp only [parseTop, parseRec, hrec]
            have hmin : minPfx (")" :: ts2) = min 0 (-1 + minPfx ts2) := rfl
            have hnp := minPfx_nonpos ts2
            refine ⟨?_, fun _ => ⟨ln, ts2, htop⟩, ?_⟩
            · rintro ⟨hb1, _⟩; exfalso; omega
            · intro h0 _; exfalso; omega
          · by_cases h2 : t = "("
            · subst h2
              have hone : parseGo (f + 1) .one ("(" :: ts2) ln =
                  parseGo f (.children []) ts2 ln := by
                rw [parseGo, if_pos rfl]
              have hlist := parseList_spec ts2.length ts2 le_rfl f ln [] (by omega)
              rcases hm : closeSplit ts2 1 with _ | m
              · have herr := hlist.2 hm
                have htop : parseTop (f + 1) ("(" :: ts2) ln = .error (⟨.eof, ln⟩, []) := by
                  simp only [parseTop, parseRec, hone, herr]
                obtain ⟨hm2, hn2⟩ := closeSplit_none ts2 1 le_rfl hm
                have hminfull : minPfx ("(" :: ts2) = min 0 (1 + minPfx ts2) := rfl
                have hnetfull : netBal ("(" :: ts2) = 1 + netBal ts2 := by
                  rw [netBal_cons]; rfl
                refine ⟨?_, ?_, fun _ _ => ⟨ln, htop⟩⟩
                · rintro ⟨_, hb2⟩; exfalso; omega
                · intro hmf; exfalso; omega
              · obtain ⟨es1, hes1⟩ := hlist.1 m hm
                obtain ⟨c, hc, hnc, hmc⟩ := closeSplit_some ts2.length ts2 le_rfl m hm
                subst hc
                have hmlen : m.length ≤ n := by
                  have hh := h
                  simp only [List.length_append, List.length_cons] at hh
                  omega
                have hih := ih m hmlen f (ln + 1) (by
                  have hh := hf
                  simp only [List.length_append, List.length_cons] at hh
                  omega)
                have hminfull : minPfx ("(" :: (c ++ ")" :: m)) = minPfx m := by
                  have e1 : minPfx ("(" :: (c ++ ")" :: m)) =
                      min 0 (1 + minPfx (c ++ ")" :: m)) := rfl
                  have e2 := minPfx_append c (")" :: m)
                  have e3 : minPfx (")" :: m) = min 0 (-1 + minPfx m) := rfl
                  have e4 := minPfx_nonpos m
                  rw [e1, e2, e3, hnc]
                  simp only [min_def]
                  split_ifs <;> omega
                have hnetfull : netBal ("(" :: (c ++ ")" :: m)) = netBal m := by
                  rw [netBal_cons, netBal_append, netBal_cons, hnc]
                  have d1 : parenDelta "(" = 1 := rfl
                  have d2 : parenDelta ")" = -1 := rfl
                  rw [d1, d2]
                  omega
                refine ⟨?_, ?_, ?_⟩
                · rintro ⟨hb1, hb2⟩
                  rw [hminfull] at hb1
                  rw [hnetfull] at hb2
                  obtain ⟨es, htm⟩ := hih.1 ⟨hb1, hb2⟩
                  refine ⟨Expr.list es1 :: es, ?_⟩
                  have : parseTop (f + 1) ("(" :: (c ++ ")" :: m)) ln =
                      .ok (Expr.list es1 :: es, ln + 1 + es.length) := by
                    simp only [parseTop, parseRec, hone, hes1, htm]
                  rw [this]
                  simp only [List.length_cons]
                  have harith : ln + 1 + es.length = ln + (es.length + 1) := by omega
                  rw [harith]
                · intro hmf
                  rw [hminfull] at hmf
                  obtain ⟨ln2, rest, htm⟩ := hih.2.1 hmf
                  refine ⟨ln2, rest, ?_⟩
                  simp only [parseTop, parseRec, hone, hes1, htm]
                · intro h0 hnf
                  rw [hminfull] at h0
                  rw [hnetfull] at hnf
                  obtain ⟨ln2, htm⟩ := hih.2.2 h0 hnf
                  refine ⟨ln2, ?_⟩
                  simp only [parseTop, parseRec, hone, hes1, htm]
            · have hrec : parseGo (f + 1) .one (t :: ts2) ln = .ok (atomExpr t, ts2) := by
                rw [parseGo, if_neg h2, if_neg h1]
              have hdt : parenDelta t = 0 := by simp [parenDelta, h1, h2]
              have hminfull : minPfx (t :: ts2) = minPfx ts2 := by
                have e1 : minPfx (t :: ts2) = min 0 (parenDelta t + minPfx ts2) := rfl
                have e4 := minPfx_nonpos ts2
                rw [e1, hdt]
                simp only [min_def]
                split_ifs <;> omega
              have hnetfull : netBal (t :: ts2) = netBal ts2 := by
                rw [netBal_cons, hdt]
                omega
              have hih := ih ts2 h f (ln + 1) (by omega)
              refine ⟨?_, ?_, ?_⟩
              · rintro ⟨hb1, hb2⟩
                rw [hminfull] at hb1
                rw [hnetfull] at hb2
                obtain ⟨es, htm⟩ := hih.1 ⟨hb1, hb2⟩
                refine ⟨atomExpr t :: es, ?_⟩
                have : parseTop (f + 1) (t :: ts2) ln =
                    .ok (atomExpr t :: es, ln + 1 + es.length) := by
                  simp only [parseTop, parseRec, hrec, htm]
                rw [this]
                simp only [List.length_cons]
                have harith : ln + 1 + es.length = ln + (es.length + 1) := by omega
                rw [harith]
              · intro hmf
                rw [hminfull] at hmf
                obtain ⟨ln2, rest, htm⟩ := hih.2.1 hmf
                refine ⟨ln2, rest, ?_⟩
                simp only [parseTop, parseRec, hrec, htm]
              · intro h0 hnf
                rw [hminfull] at h0
                rw [hnetfull] at hnf
                obtain ⟨ln2, htm⟩ := hih.2.2 h0 hnf
                refine ⟨ln2, ?_⟩
                simp only [parseTop, parseRec, hrec, htm]

/-- C5: for every token sequence, the Parser succeeds exactly when every
`(` has a matching later `)` and vice versa at the top level (the running
depth never dips below zero and ends at zero); a queue with an unmatched
`)` (depth dips negative) fails with the `unexpected )` error, and a queue
with a missing `)` (depth stays nonnegative but ends positive) fails with
`unexpected EOF`. -/
theorem c5_paren_balance (ts : List Token) :
    ((∃ es k, parse ts = .ok (es, k)) ↔ BalancedTok ts) ∧
    (minPfx ts < 0 → ∃ ln rest, parse ts = .error (⟨.close, ln⟩, rest)) ∧
    (0 ≤ minPfx ts → netBal ts ≠ 0 → ∃ ln, parse ts = .error (⟨.eof, ln⟩, [])) := by
  have hspec := parseTop_spec ts.length ts le_rfl (parseFuel ts) 1 (by simp [parseFuel])
  unfold parse
  refine ⟨⟨?_, ?_⟩, ?_, ?_⟩
  · rintro ⟨es, k, hok⟩
    by_contra hb
    unfold BalancedTok at hb
    push_neg at hb
    by_cases hmin : 0 ≤ minPfx ts
    · have hnet := hb hmin
      obtain ⟨ln2, herr⟩ := hspec.2.2 hmin hnet
      rw [hok] at herr
      cases herr
    · obtain ⟨ln2, rest, herr⟩ := hspec.2.1 (by omega)
      rw [hok] at herr
      cases herr
  · intro hbal
    obtain ⟨es, htm⟩ := hspec.1 hbal
    exact ⟨es, _, htm⟩
  · intro h
    exact hspec.2.1 h
  · intro h1 h2
    exact hspec.2.2 h1 h2

/-- Witness for C5 at three concrete queues: a balanced one succeeds, a
stray `)` is `unexpected )`, an unclosed `(` is `unexpected EOF`. -/
theorem c5_paren_balance_witness :
    (∃ es k, parse ["(", "1", ")"] = .ok (es, k)) ∧
    (∃ ln rest, parse [")"] = .error (⟨.close, ln⟩, rest)) ∧
    (∃ ln, parse ["("] = .error (⟨.eof, ln⟩, [])) :=
  ⟨(c5_paren_balance ["(", "1", ")"]).1.mpr (by constructor <;> decide),
   (c5_paren_balance [")"]).2.1 (by decide),
   (c5_paren_balance ["("]).2.2 (by decide) (by decide)⟩

/-! ## Claim C8: round trip — digit strings -/

theorem digitChar_spec (d : Nat) (h : d < 10) :
    isDigitChar (digitChar d) = true ∧ digitVal (digitChar d) = d ∧
      isAtomBreak (digitChar d) = false ∧ digitChar d ≠ '.' ∧ digitChar d ≠ '-' ∧
      digitChar d ≠ 'e' ∧ digitChar d ≠ 'E' := by
  interval_cases d <;> refine ⟨by decide, by decide, by decide, by decide, by decide, by decide, by decide⟩

theorem renderNatGo_irrel (n : Nat) :
    ∀ f1 f2, n < f1 → n < f2 → renderNatGo f1 n = renderNatGo f2 n := by
  induction n using Nat.strong_induction_on with
  | _ n ih =>
      intro f1 f2 h1 h2
      cases f1 with
      | zero => omega
      | succ g1 =>
          cases f2 with
          | zero => omega
          | succ g2 =>
              rw [renderNatGo, renderNatGo]
              by_cases hn : n < 10
              · rw [if_pos hn, if_pos hn]
              · rw [if_neg hn, if_neg hn]
                have hlt : n / 10 < n := Nat.div_lt_self (by omega) (by norm_num)
                rw [ih (n / 10) hlt g1 g2 (by omega) (by omega)]

theorem renderNat_small (n : Nat) (h : n < 10) : renderNat n = [digitChar n] := by
  rw [renderNat, renderNatGo, if_pos h]

theorem renderNat_step (n : Nat) (h : 10 ≤ n) :
    renderNat n = renderNat (n / 10) ++ [digitChar (n % 10)] := by
  rw [renderNat, renderNat, renderNatGo, if_neg (by omega)]
  have hlt : n / 10 < n := Nat.div_lt_self (by omega) (by norm_num)
  rw [renderNatGo_irrel (n / 10) n (n / 10 + 1) hlt (by omega)]

theorem renderNat_digits (n : Nat) : ∀ c ∈ renderNat n, isDigitChar c = true := by
  induction n using Nat.strong_induction_on with
  | _ n ih =>
      by_cases hn : n < 10
      · rw [renderNat_small n hn]
        intro c hc
        simp at hc
        subst hc
        exact (digitChar_spec n hn).1
      · rw [renderNat_step n (by omega)]
        intro c hc
        rcases List.mem_append.mp hc with h1 | h2
        · exact ih (n / 10) (Nat.div_lt_self (by omega) (by norm_num)) c h1
        · simp at h2
          subst h2
          exact (digitChar_spec (n % 10) (Nat.mod_lt n (by norm_num))).1

theorem renderNat_ne_nil (n : Nat) : renderNat n ≠ [] := by
  by_cases hn : n < 10
  · rw [renderNat_small n hn]; simp
  · rw [renderNat_step n (by omega)]; simp

theorem foldl_digits_general (l : List Char) :
    ∀ init : Nat, l.foldl (fun a c => a * 10 + digitVal c) init =
      init * 10 ^ l.length + parseNatDigits l := by
  induction l with
  | nil => intro init; simp [parseNatDigits]
  | cons c l ih =>
      intro init
      rw [List.foldl_cons]
      rw [ih (init * 10 + digitVal c)]
      unfold parseNatDigits
      rw [List.foldl_cons, ih (0 * 10 + digitVal c)]
      simp only [List.length_cons, pow_succ, Nat.zero_mul, Nat.zero_add]
      unfold parseNatDigits
      ring

theorem parseNatDigits_append (a b : List Char) :
    parseNatDigits (a ++ b) = parseNatDigits a * 10 ^ b.length + parseNatDigits b := by
  unfold parseNatDigits
  rw [List.foldl_append]
  rw [foldl_digits_general b (List.foldl (fun a c => a * 10 + digitVal c) 0 a)]
  rfl

theorem parseNat_renderNat (n : Nat) : parseNatDigits (renderNat n) = n := by
  induction n using Nat.strong_induction_on with
  | _ n ih =>
      by_cases hn : n < 10
      · rw [renderNat_small n hn]
        unfold parseNatDigits
        simp [(digitChar_spec n hn).2.1]
      · rw [renderNat_step n (by omega)]
        rw [parseNatDigits_append]
        rw [ih (n / 10) (Nat.div_lt_self (by omega) (by norm_num))]
        have hm : parseNatDigits [digitChar (n % 10)] = n % 10 := by
          unfold parseNatDigits
          simp [(digitChar_spec (n % 10) (Nat.mod_lt n (by norm_num))).2.1]
        rw [hm]
        simp
        omega

theorem parseNatDigits_replicate_zero (j : Nat) :
    parseNatDigits (List.replicate j '0') = 0 := by
  induction j with
  | zero => rfl
  | succ j ih =>
      have : List.replicate (j + 1) '0' = '0' :: List.replicate j '0' := rfl
      rw [this]
      have step : parseNatDigits ('0' :: List.replicate j '0') =
          parseNatDigits ([ '0' ] ++ List.replicate j '0') := rfl
      rw [step, parseNatDigits_append, ih]
      simp [parseNatDigits, digitVal]

theorem parseNatDigits_zeros_front (j : Nat) (l : List Char) :
    parseNatDigits (List.replicate j '0' ++ l) = parseNatDigits l := by
  rw [parseNatDigits_append, parseNatDigits_replicate_zero]
  simp

theorem parseInt_renderInt (n : Int) : parseInt (renderInt n) = some n := by
  by_cases hn : n < 0
  · rw [renderInt, if_pos hn]
    have hne := renderNat_ne_nil n.natAbs
    have hdig := renderNat_digits n.natAbs
    rw [parseInt]
    rw [if_pos ⟨hne, List.all_eq_true.mpr hdig⟩]
    rw [parseNat_renderNat]
    congr 1
    omega
  · rw [renderInt, if_neg hn]
    have hne := renderNat_ne_nil n.natAbs
    have hdig := renderNat_digits n.natAbs
    rcases hh : renderNat n.natAbs with _ | ⟨c, cs⟩
    · exact absurd hh hne
    · have hc : isDigitChar c = true := by
        have := hdig c
        rw [hh] at this
        exact this (by simp)
      have hcm : c ≠ '-' := by
        intro hcc
        subst hcc
        simp [isDigitChar] at hc
      have hcp : c ≠ '+' := by
        intro hcc
        subst hcc
        simp [isDigitChar] at hc
      have hall : (c :: cs).all isDigitChar = true := by
        rw [← hh]
        exact List.all_eq_true.mpr hdig
      have hval : parseNatDigits (c :: cs) = n.natAbs := by
        rw [← hh]
        exact parseNat_renderNat n.natAbs
      rw [parseInt.eq_def]
      split
      · rename_i heq
        injection heq with heq1 _
        exact absurd heq1 hcm
      · rename_i heq
        injection heq with heq1 _
        exact absurd heq1 hcp
      · rw [if_pos ⟨by simp, hall⟩, hval]
        congr 1
        omega

/-! ## Claim C8: round trip — decimal denominators -/

theorem stripFactorGo_spec (fuel : Nat) :
    ∀ p n : Nat, n ≤ fuel → 2 ≤ p →
      (stripFactorGo fuel p n).2 * p ^ (stripFactorGo fuel p n).1 = n ∧
      (0 < n → ¬ p ∣ (stripFactorGo fuel p n).2) := by
  induction fuel with
  | zero =>
      intro p n hn hp
      have : n = 0 := by omega
      subst this
      simp [stripFactorGo]
  | succ f ih =>
      intro p n hn hp
      rw [stripFactorGo]
      by_cases h : 2 ≤ p ∧ 0 < n ∧ p ∣ n
      · rw [if_pos h]
        rcases hGo : stripFactorGo f p (n / p) with ⟨e, r⟩
        have hnp : n / p ≤ f := by
          have := Nat.div_lt_self h.2.1 (by omega : 1 < p)
          omega
        have hih := ih p (n / p) hnp hp
        rw [hGo] at hih
        simp only at hih ⊢
        constructor
        · have : r * p ^ (e + 1) = r * p ^ e * p := by ring
          rw [this, hih.1]
          exact Nat.div_mul_cancel h.2.2
        · intro _
          have hpos : 0 < n / p := Nat.div_pos (Nat.le_of_dvd h.2.1 h.2.2) (by omega)
          exact hih.2 hpos
      · rw [if_neg h]
        refine ⟨by simp, fun hn0 hdvd => h ⟨hp, hn0, hdvd⟩⟩

theorem stripFactor_spec (p n : Nat) (hp : 2 ≤ p) :
    (stripFactor p n).2 * p ^ (stripFactor p n).1 = n ∧
      (0 < n → ¬ p ∣ (stripFactor p n).2) :=
  stripFactorGo_spec n p n le_rfl hp

/-- A positive divisor of a power of ten has only 2s and 5s in it, so the
`decimalDenom` test accepts it. -/
theorem decimalDenom_of_dvd_pow10 (d : Nat) (hd : 0 < d) (j : Nat) (h : d ∣ 10 ^ j) :
    (stripFactor 5 (stripFactor 2 d).2).2 = 1 := by
  obtain ⟨h2eq, h2nd⟩ := stripFactor_spec 2 d (by norm_num)
  set d2 := (stripFactor 2 d).2 with hd2
  have hd2dvd : d2 ∣ d := ⟨2 ^ (stripFactor 2 d).1, h2eq.symm⟩
  have hd2pos : 0 < d2 := by
    rcases Nat.eq_zero_or_pos d2 with h0 | h0
    · rw [h0] at h2eq; omega
    · exact h0
  obtain ⟨h5eq, h5nd⟩ := stripFactor_spec 5 d2 (by norm_num)
  set r := (stripFactor 5 d2).2 with hr
  have hrdvd : r ∣ d2 := ⟨5 ^ (stripFactor 5 d2).1, h5eq.symm⟩
  have hrd : r ∣ 10 ^ j := (hrdvd.trans hd2dvd).trans h
  have hr2 : ¬ 2 ∣ r := fun hc => (h2nd hd) (hc.trans hrdvd)
  have hr5 : ¬ 5 ∣ r := h5nd hd2pos
  have hc2 : Nat.Coprime r 2 := (Nat.Prime.coprime_iff_not_dvd Nat.prime_two).mpr hr2 |>.symm
  have hc5 : Nat.Coprime r 5 := (Nat.Prime.coprime_iff_not_dvd Nat.prime_five).mpr hr5 |>.symm
  have hc10 : Nat.Coprime r 10 := by
    have : (10 : Nat) = 2 * 5 := by norm_num
    rw [this]
    exact Nat.Coprime.mul_right hc2 hc5
  have hc10j : Nat.Coprime r (10 ^ j) := hc10.pow_right j
  have : r ∣ 1 := by
    have hg : r ∣ Nat.gcd r (10 ^ j) := Nat.dvd_gcd dvd_rfl hrd
    rwa [hc10j] at hg
  exact Nat.dvd_one.mp this

/-- A decimal-denominator rational's denominator divides the power of ten
the renderer scales by. -/
theorem den_dvd_pow10_of_decimal (d : Nat)
    (h : (stripFactor 5 (stripFactor 2 d).2).2 = 1) :
    d ∣ 10 ^ (max (stripFactor 2 d).1 (stripFactor 5 (stripFactor 2 d).2).1) := by
  obtain ⟨h2eq, _⟩ := stripFactor_spec 2 d (by norm_num)
  obtain ⟨h5eq, _⟩ := stripFactor_spec 5 (stripFactor 2 d).2 (by norm_num)
  rw [h, one_mul] at h5eq
  rw [← h5eq] at h2eq
  have key : 5 ^ (stripFactor 5 (stripFactor 2 d).2).1 * 2 ^ (stripFactor 2 d).1 ∣
      10 ^ (max (stripFactor 2 d).1 (stripFactor 5 (stripFactor 2 d).2).1) := by
    have h10 : (10 : Nat) ^ (max (stripFactor 2 d).1 (stripFactor 5 (stripFactor 2 d).2).1) =
        5 ^ (max (stripFactor 2 d).1 (stripFactor 5 (stripFactor 2 d).2).1) *
          2 ^ (max (stripFactor 2 d).1 (stripFactor 5 (stripFactor 2 d).2).1) := by
      have h52 : (10 : Nat) = 5 * 2 := by norm_num
      rw [h52, mul_pow]
    rw [h10]
    exact mul_dvd_mul (pow_dvd_pow 5 (le_max_right _ _)) (pow_dvd_pow 2 (le_max_left _ _))
  rwa [h2eq] at key

theorem takeDigits_split (ds : List Char) :
    ∀ rest : List Char, (∀ c ∈ ds, isDigitChar c = true) →
      (∀ c, rest.head? = some c → isDigitChar c = false) →
      takeDigits (ds ++ rest) = (ds, rest) := by
  induction ds with
  | nil =>
      intro rest _ hrest
      cases rest with
      | nil => rfl
      | cons c cs =>
          have hc := hrest c rfl
          rw [List.nil_append, takeDigits]
          rw [if_neg (by simp [hc])]
  | cons c ds ih =>
      intro rest hds hrest
      have hc : isDigitChar c = true := hds c (by simp)
      rw [List.cons_append, takeDigits, if_pos hc]
      rw [ih rest (fun x hx => hds x (by simp [hx])) hrest]

theorem lowerChar_digit (c : Char) (h : isDigitChar c = true) : lowerChar c = c := by
  simp only [isDigitChar, decide_eq_true_eq] at h
  rw [lowerChar, if_neg]
  rintro ⟨h1, _⟩
  have h9 : ('9' : Char) < 'A' := by decide
  exact absurd (lt_of_lt_of_le (lt_of_le_of_lt h.2 h9) h1) (lt_irrefl c)

theorem parseInt_none_of_dot (s : List Char) (h : '.' ∈ s) : parseInt s = none := by
  have hall : ∀ rest : List Char, '.' ∈ rest → ¬(rest ≠ [] ∧ rest.all isDigitChar = true) := by
    rintro rest hm ⟨_, ha⟩
    have := List.all_eq_true.mp ha '.' hm
    simp [isDigitChar] at this
  cases s with
  | nil => simp at h
  | cons c cs =>
      by_cases hc : c = '-'
      · subst hc
        have hmem : '.' ∈ cs := by
          rcases List.mem_cons.mp h with h1 | h1
          · cases h1
          · exact h1
        rw [parseInt, if_neg (hall cs hmem)]
      · by_cases hc2 : c = '+'
        · subst hc2
          have hmem : '.' ∈ cs := by
            rcases List.mem_cons.mp h with h1 | h1
            · cases h1
            · exact h1
          rw [parseInt.eq_def]
          split
          · rename_i rest heq
            injection heq with h1 _
            cases h1
          · rename_i rest heq
            injection heq with h1 h2
            subst h2
            rw [if_neg (hall cs hmem)]
          · rename_i hne1 hne2
            exact absurd rfl (hne2 cs)
        · rw [parseInt.eq_def]
          split
          · rename_i rest heq
            injection heq with h1 _
            exact absurd h1 hc
          · rename_i rest heq
            injection heq with h1 _
            exact absurd h1 hc2
          · rw [if_neg (hall (c :: cs) h)]

/-! ## Claim C8: round trip — float rendering -/

theorem parseExponent_nil : parseExponent [] = some 0 := rfl

theorem scalePow10_zero (q : ℚ) : scalePow10 q 0 = q := by
  simp [scalePow10]

theorem parseFloatBody_case0 (m : Nat) :
    parseFloatBody (renderNat m ++ ['.', '0']) = some ((m : ℚ)) := by
  have hsplit : takeDigits (renderNat m ++ ['.', '0']) = (renderNat m, ['.', '0']) :=
    takeDigits_split (renderNat m) ['.', '0'] (renderNat_digits m)
      (by intro c hc; cases hc; decide)
  have hzero : takeDigits ('0' :: ([] : List Char)) = (['0'], []) := by decide
  rw [parseFloatBody.eq_def]
  rw [hsplit]
  simp only
  rw [hzero]
  simp only
  rw [if_neg (by rintro ⟨h1, _⟩; exact renderNat_ne_nil m h1)]
  rw [parseExponent_nil]
  simp only [scalePow10_zero]
  congr 1
  rw [parseNat_renderNat]
  have h0 : parseNatDigits ['0'] = 0 := by decide
  rw [h0]
  push_cast
  have : ((['0'] : List Char)).length = 1 := rfl
  rw [this]
  field_simp

theorem parseFloatBody_case1 (m k : Nat) (hk0 : 0 < k) (hklen : k < (renderNat m).length) :
    parseFloatBody ((renderNat m).take ((renderNat m).length - k) ++
        '.' :: (renderNat m).drop ((renderNat m).length - k)) =
      some ((m : ℚ) / 10 ^ k) := by
  set ds := renderNat m with hds
  have hdig := renderNat_digits m
  have htakedig : ∀ c ∈ ds.take (ds.length - k), isDigitChar c = true :=
    fun c hc => hdig c (List.take_subset _ _ hc)
  have hdropdig : ∀ c ∈ ds.drop (ds.length - k), isDigitChar c = true :=
    fun c hc => hdig c (List.drop_subset _ _ hc)
  have hsplit : takeDigits (ds.take (ds.length - k) ++ '.' :: ds.drop (ds.length - k)) =
      (ds.take (ds.length - k), '.' :: ds.drop (ds.length - k)) :=
    takeDigits_split _ _ htakedig (by intro c hc; cases hc; decide)
  have hsplit2 : takeDigits (ds.drop (ds.length - k) ++ ([] : List Char)) =
      (ds.drop (ds.length - k), []) :=
    takeDigits_split _ [] hdropdig (by intro c hc; cases hc)
  rw [List.append_nil] at hsplit2
  have hlen : (ds.drop (ds.length - k)).length = k := by
    rw [List.length_drop]
    omega
  rw [parseFloatBody.eq_def, hsplit]
  simp only
  rw [hsplit2]
  simp only
  rw [if_neg (by
    rintro ⟨_, h2⟩
    rw [h2] at hlen
    simp at hlen
    omega)]
  rw [parseExponent_nil]
  simp only [scalePow10_zero]
  congr 1
  rw [hlen]
  have hjoin : parseNatDigits (ds.take (ds.length - k)) * 10 ^ k +
      parseNatDigits (ds.drop (ds.length - k)) = m := by
    have := parseNatDigits_append (ds.take (ds.length - k)) (ds.drop (ds.length - k))
    rw [List.take_append_drop] at this
    rw [hlen] at this
    rw [← this, hds, parseNat_renderNat]
  rw [← hjoin]
  push_cast
  ring

theorem parseFloatBody_case2 (m k : Nat) (hk0 : 0 < k) (hklen : (renderNat m).length ≤ k) :
    parseFloatBody ('0' :: '.' :: (List.replicate (k - (renderNat m).length) '0' ++ renderNat m)) =
      some ((m : ℚ) / 10 ^ k) := by
  set ds := renderNat m with hds
  have hdig := renderNat_digits m
  have hfdig : ∀ c ∈ List.replicate (k - ds.length) '0' ++ ds, isDigitChar c = true := by
    intro c hc
    rcases List.mem_append.mp hc with h1 | h1
    · rw [List.eq_of_mem_replicate h1]; decide
    · exact hdig c h1
  have hsplit : takeDigits ('0' :: '.' :: (List.replicate (k - ds.length) '0' ++ ds)) =
      (['0'], '.' :: (List.replicate (k - ds.length) '0' ++ ds)) := by
    have : ('0' : Char) :: '.' :: (List.replicate (k - ds.length) '0' ++ ds) =
        ['0'] ++ '.' :: (List.replicate (k - ds.length) '0' ++ ds) := rfl
    rw [this]
    exact takeDigits_split ['0'] _ (by intro c hc; simp at hc; subst hc; decide)
      (by intro c hc; cases hc; decide)
  have hsplit2 : takeDigits (List.replicate (k - ds.length) '0' ++ ds ++ ([] : List Char)) =
      (List.replicate (k - ds.length) '0' ++ ds, []) :=
    takeDigits_split _ [] hfdig (by intro c hc; cases hc)
  rw [List.append_nil] at hsplit2
  have hlen : (List.replicate (k - ds.length) '0' ++ ds).length = k := by
    simp [List.length_replicate]
    omega
  rw [parseFloatBody.eq_def, hsplit]
  simp only
  rw [hsplit2]
  simp only
  rw [if_neg (by rintro ⟨h1, _⟩; cases h1)]
  rw [parseExponent_nil]
  simp only [scalePow10_zero]
  congr 1
  rw [hlen]
  have hz : parseNatDigits (List.replicate (k - ds.length) '0' ++ ds) = m := by
    rw [parseNatDigits_zeros_front, hds, parseNat_renderNat]
  rw [hz]
  have h0 : parseNatDigits ['0'] = 0 := by decide
  rw [h0]
  push_cast
  ring

theorem digit_not_break (c : Char) (h : isDigitChar c = true) : isAtomBreak c = false := by
  by_contra hb
  have hb2 : isAtomBreak c = true := by
    cases hx : isAtomBreak c
    · exact absurd hx hb
    · rfl
  simp only [isAtomBreak, isSpaceChar, decide_eq_true_eq] at hb2
  rcases hb2 with (h1 | h1 | h1 | h1 | h1 | h1) | h1 | h1 | h1 <;>
    (subst h1; exact absurd h (by decide))

theorem splitSign_not_sign (c0 : Char) (cs0 : List Char) (h1 : c0 ≠ '-') (h2 : c0 ≠ '+') :
    splitSign (c0 :: cs0) = (false, c0 :: cs0) := by
  rw [splitSign.eq_def]
  split
  · rename_i heq
    injection heq with ha _
    exact absurd ha h1
  · rename_i heq
    injection heq with ha _
    exact absurd ha h2
  · rfl

theorem digit_ne_minus (c : Char) (h : isDigitChar c = true) : c ≠ '-' := by
  intro hcc; subst hcc; exact absurd h (by decide)

theorem digit_ne_plus (c : Char) (h : isDigitChar c = true) : c ≠ '+' := by
  intro hcc; subst hcc; exact absurd h (by decide)

theorem lowmap_ne_special (c0 : Char) (cs0 : List Char) (hc : isDigitChar c0 = true) :
    (c0 :: cs0).map lowerChar ≠ "inf".toList ∧
    (c0 :: cs0).map lowerChar ≠ "infinity".toList ∧
    (c0 :: cs0).map lowerChar ≠ "nan".toList := by
  have hl0 : lowerChar c0 = c0 := lowerChar_digit c0 hc
  refine ⟨?_, ?_, ?_⟩ <;>
    (intro hcontra
     have hh := congrArg List.head? hcontra
     simp only [List.map_cons, List.head?_cons, hl0] at hh
     have : c0 = _ := Option.some.inj hh
     subst this
     exact absurd hc (by decide))

theorem parseFloat_cons_digit (c0 : Char) (cs0 : List Char) (v : ℚ)
    (hc : isDigitChar c0 = true)
    (hbody : parseFloatBody (c0 :: cs0) = some v) :
    parseFloat (c0 :: cs0) = some (.finite v) := by
  have hsign : splitSign (c0 :: cs0) = (false, c0 :: cs0) :=
    splitSign_not_sign c0 cs0 (digit_ne_minus c0 hc) (digit_ne_plus c0 hc)
  obtain ⟨hne1, hne2, hne3⟩ := lowmap_ne_special c0 cs0 hc
  unfold parseFloat
  rw [hsign]
  simp only
  rw [if_neg (by rintro (hx | hx); exacts [hne1 hx, hne2 hx])]
  rw [if_neg hne3]
  rw [hbody]
  simp

theorem parseFloat_neg_digit (c0 : Char) (cs0 : List Char) (v : ℚ)
    (hc : isDigitChar c0 = true)
    (hbody : parseFloatBody (c0 :: cs0) = some v) :
    parseFloat ('-' :: c0 :: cs0) = some (.finite (-v)) := by
  have hsign : splitSign ('-' :: c0 :: cs0) = (true, c0 :: cs0) := rfl
  obtain ⟨hne1, hne2, hne3⟩ := lowmap_ne_special c0 cs0 hc
  unfold parseFloat
  rw [hsign]
  simp only
  rw [if_neg (by rintro (hx | hx); exacts [hne1 hx, hne2 hx])]
  rw [if_neg hne3]
  rw [hbody]
  simp


/-- The decimal body of a float with a suitable scale parses back to the
absolute value, starts with a digit, contains a dot, and is break-free. -/
theorem floatBody_spec (q : ℚ) (k : Nat) :
    (parseFloatBody (floatBody q k) =
      some (((q.num.natAbs * (10 ^ k / q.den) : Nat) : ℚ) / 10 ^ k)) ∧
    (∃ c0 cs0, floatBody q k = c0 :: cs0 ∧ isDigitChar c0 = true) ∧
    '.' ∈ floatBody q k ∧
    ∀ c ∈ floatBody q k, isAtomBreak c = false := by
  set m := q.num.natAbs * (10 ^ k / q.den) with hm
  set ds := renderNat m with hds
  have hdig := renderNat_digits m
  have hdsne := renderNat_ne_nil m
  have hunfold : floatBody q k =
      (if k = 0 then ds ++ ['.', '0']
       else if k < ds.length then
         ds.take (ds.length - k) ++ '.' :: ds.drop (ds.length - k)
       else '0' :: '.' :: (List.replicate (k - ds.length) '0' ++ ds)) := by
    rw [floatBody]
  refine ⟨?_, ?_, ?_, ?_⟩
  · rw [hunfold]
    by_cases hk0 : k = 0
    · rw [if_pos hk0, hds, parseFloatBody_case0, hk0]
      norm_num
    · rw [if_neg hk0]
      by_cases hklen : k < ds.length
      · rw [if_pos hklen, hds]
        exact parseFloatBody_case1 m k (by omega) (by rw [← hds]; exact hklen)
      · rw [if_neg hklen, hds]
        exact parseFloatBody_case2 m k (by omega) (by rw [← hds]; omega)
  · rw [hunfold]
    by_cases hk0 : k = 0
    · rw [if_pos hk0]
      rcases hdd : ds with _ | ⟨c0, cs⟩
      · exact absurd hdd hdsne
      · refine ⟨c0, cs ++ ['.', '0'], by simp, ?_⟩
        exact hdig c0 (by rw [hds] at hdd; rw [hdd]; simp)
    · rw [if_neg hk0]
      by_cases hklen : k < ds.length
      · rw [if_pos hklen]
        rcases hdd : ds with _ | ⟨c0, cs⟩
        · exact absurd hdd hdsne
        · obtain ⟨j, hj⟩ : ∃ j, (c0 :: cs).length - k = j + 1 := by
            refine ⟨(c0 :: cs).length - k - 1, ?_⟩
            rw [hdd] at hklen
            simp only [List.length_cons] at hklen ⊢
            omega
          rw [hj, List.take_succ_cons]
          refine ⟨c0, _, rfl, ?_⟩
          exact hdig c0 (by rw [hds] at hdd; rw [hdd]; simp)
      · rw [if_neg hklen]
        exact ⟨'0', _, rfl, by decide⟩
  · rw [hunfold]
    by_cases hk0 : k = 0
    · rw [if_pos hk0]; simp
    · rw [if_neg hk0]
      by_cases hklen : k < ds.length
      · rw [if_pos hklen]; simp
      · rw [if_neg hklen]; simp
  · rw [hunfold]
    intro c hc
    by_cases hk0 : k = 0
    · rw [if_pos hk0] at hc
      rcases List.mem_append.mp hc with h1 | h1
      · exact digit_not_break c (hdig c h1)
      · rcases h1 with _ | ⟨_, h1⟩
        · decide
        · rcases h1 with _ | ⟨_, h1⟩
          · decide
          · cases h1
    · rw [if_neg hk0] at hc
      by_cases hklen : k < ds.length
      · rw [if_pos hklen] at hc
        rcases List.mem_append.mp hc with h1 | h1
        · exact digit_not_break c (hdig c (List.take_subset _ _ h1))
        · rcases h1 with _ | ⟨_, h1⟩
          · decide
          · exact digit_not_break c (hdig c (List.drop_subset _ _ h1))
      · rw [if_neg hklen] at hc
        rcases hc with _ | ⟨_, h1⟩
        · decide
        · rcases h1 with _ | ⟨_, h1⟩
          · decide
          · rcases List.mem_append.mp h1 with h2 | h2
            · rw [List.eq_of_mem_replicate h2]; decide
            · exact digit_not_break c (hdig c h2)

/-- With the denominator dividing the scale, the scaled-integer quotient
is the absolute value of the rational. -/
theorem floatBody_value (q : ℚ) (k : Nat) (hdvd : q.den ∣ 10 ^ k) :
    (((q.num.natAbs * (10 ^ k / q.den) : Nat) : ℚ) / 10 ^ k)
      = (q.num.natAbs : ℚ) / (q.den : ℚ) := by
  have hden0 : (q.den : ℚ) ≠ 0 := by
    exact_mod_cast q.den_nz
  have h10 : ((10 : ℚ) ^ k) ≠ 0 := by positivity
  have hcast : ((10 ^ k / q.den : Nat) : ℚ) = ((10 ^ k : Nat) : ℚ) / (q.den : ℚ) :=
    Nat.cast_div hdvd hden0
  push_cast [hcast]
  field_simp
  ring

/-- A good float renders to a token that `float` reads back to the same
value, that `int` rejects, that is nonempty and free of break characters. -/
theorem renderFloat_spec (f : PyFloat) (h : goodFloat f = true) :
    parseFloat (renderFloat f) = some f ∧ parseInt (renderFloat f) = none ∧
    renderFloat f ≠ [] ∧ ∀ c ∈ renderFloat f, isAtomBreak c = false := by
  cases f with
  | inf => exact ⟨by decide, by decide, by decide, by decide⟩
  | neginf => exact ⟨by decide, by decide, by decide, by decide⟩
  | nan => exact absurd h (by decide)
  | finite q =>
      have hdec : (stripFactor 5 (stripFactor 2 q.den).2).2 = 1 := by
        have := h
        simp only [goodFloat, decimalDenom, decide_eq_true_eq] at this
        exact this
      rcases hsf2 : stripFactor 2 q.den with ⟨a, d2⟩
      rcases hsf5 : stripFactor 5 d2 with ⟨b, r⟩
      have hr1 : r = 1 := by
        rw [hsf2] at hdec
        dsimp only at hdec
        rw [hsf5] at hdec
        exact hdec
      have hdvd : q.den ∣ 10 ^ (max a b) := by
        have hk := den_dvd_pow10_of_decimal q.den hdec
        rw [hsf2] at hk
        dsimp only at hk
        rw [hsf5] at hk
        exact hk
      have hrender : renderFloat (.finite q) =
          if q.num < 0 then '-' :: floatBody q (max a b) else floatBody q (max a b) := by
        rw [renderFloat]
        rw [hsf2]
        dsimp only
        rw [hsf5]
        dsimp only
        rw [if_pos hr1]
      obtain ⟨hparse, ⟨c0, cs0, hcons, hc0dig⟩, hdot, hbreak⟩ := floatBody_spec q (max a b)
      have hval := floatBody_value q (max a b) hdvd
      by_cases hneg : q.num < 0
      · rw [hrender, if_pos hneg]
        have habs : ((q.num.natAbs : ℚ)) / (q.den : ℚ) = -q := by
          rw [Int.cast_natAbs, abs_of_neg (by exact_mod_cast hneg)]
          push_cast
          rw [neg_div, Rat.num_div_den]
        refine ⟨?_, ?_, ?_, ?_⟩
        · rw [hcons] at hparse ⊢
          rw [parseFloat_neg_digit c0 cs0 _ hc0dig hparse]
          have hfin : -(((q.num.natAbs * (10 ^ (max a b) / q.den) : Nat) : ℚ)
              / 10 ^ (max a b)) = q := by
            rw [hval, habs, neg_neg]
          rw [hfin]
        · apply parseInt_none_of_dot
          exact List.mem_cons_of_mem _ hdot
        · simp
        · intro c hc
          rcases hc with _ | ⟨_, hc⟩
          · decide
          · exact hbreak c hc
      · rw [hrender, if_neg hneg]
        have habs : ((q.num.natAbs : ℚ)) / (q.den : ℚ) = q := by
          rw [Int.cast_natAbs, abs_of_nonneg (by exact_mod_cast not_lt.mp hneg),
            Rat.num_div_den]
        refine ⟨?_, ?_, ?_, ?_⟩
        · rw [hcons] at hparse ⊢
          rw [parseFloat_cons_digit c0 cs0 _ hc0dig hparse]
          have hfin : (((q.num.natAbs * (10 ^ (max a b) / q.den) : Nat) : ℚ)
              / 10 ^ (max a b)) = q := by
            rw [hval, habs]
          rw [hfin]
        · apply parseInt_none_of_dot
          exact hdot
        · rw [hcons]
          simp
        · exact hbreak

/-- The tokenizer worker is independent of its budget once the budget
exceeds the input length. -/
theorem tokenizeGo_irrel (fuel : Nat) : ∀ (cs : List Char) (fuel' : Nat),
    cs.length < fuel → cs.length < fuel' →
    tokenizeGo fuel cs = tokenizeGo fuel' cs := by
  induction fuel with
  | zero => intro cs fuel' h _; omega
  | succ fuel ih =>
      intro cs fuel' h h'
      cases fuel' with
      | zero => omega
      | succ fuel' =>
          cases cs with
          | nil => rfl
          | cons c rest =>
              simp only [List.length_cons] at h h'
              simp only [tokenizeGo]
              by_cases hc : c = ';'
              · rw [if_pos hc, if_pos hc]
                have hlen := dropComment_cons_length c rest
                exact ih _ _ (by omega) (by omega)
              · rw [if_neg hc, if_neg hc]
                by_cases hp : c = '(' ∨ c = ')'
                · rw [if_pos hp, if_pos hp]
                  rw [ih rest fuel' (by omega) (by omega)]
                · rw [if_neg hp, if_neg hp]
                  by_cases hs : isSpaceChar c
                  · rw [if_pos hs, if_pos hs]
                    exact ih rest fuel' (by omega) (by omega)
                  · rw [if_neg hs, if_neg hs]
                    have hcb : isAtomBreak c = false := by
                      cases hx : isAtomBreak c
                      · rfl
                      · exfalso
                        rw [isAtomBreak] at hx
                        simp only [decide_eq_true_eq] at hx
                        rcases hx with hx | hx | hx | hx
                        · exact hs hx
                        · exact hp (Or.inl hx)
                        · exact hp (Or.inr hx)
                        · exact hc hx
                    rw [takeAtom_cons_notBreak c rest hcb]
                    have hlen := takeAtom_snd_length rest
                    rw [ih ((takeAtom rest).2) fuel' (by omega) (by omega)]

/-- A run of non-break characters followed by a break (or the end) is
exactly what the atom loop consumes. -/
theorem takeAtom_append (ts rest : List Char)
    (hts : ∀ c ∈ ts, isAtomBreak c = false)
    (hrest : rest = [] ∨ ∃ c rs, rest = c :: rs ∧ isAtomBreak c = true) :
    takeAtom (ts ++ rest) = (ts, rest) := by
  induction ts with
  | nil =>
      simp only [List.nil_append]
      rcases hrest with h | ⟨c, rs, h, hb⟩
      · subst h; rfl
      · subst h; simp [takeAtom, hb]
  | cons c ts ih =>
      have hc := hts c (by simp)
      rw [List.cons_append, takeAtom_cons_notBreak c _ hc,
        ih (fun x hx => hts x (by simp [hx]))]

/-- A parenthesis becomes its own one-character token. -/
theorem tokenizeL_paren (c : Char) (rest : List Char) (h : c = '(' ∨ c = ')') :
    tokenizeL (c :: rest) = String.mk [c] :: tokenizeL rest := by
  have hc : ¬ c = ';' := by rcases h with h | h <;> (subst h; decide)
  show tokenizeGo (rest.length + 1 + 1) (c :: rest) = _
  rw [tokenizeGo, if_neg hc, if_pos h]
  rfl

/-- A space separator is skipped. -/
theorem tokenizeL_space (rest : List Char) :
    tokenizeL (' ' :: rest) = tokenizeL rest := by
  show tokenizeGo (rest.length + 1 + 1) (' ' :: rest) = _
  rw [tokenizeGo, if_neg (by decide), if_neg (by decide), if_pos (by decide)]
  rfl

/-- A nonempty run of non-break characters that the input continues with a
break (or ends at) becomes a single token. -/
theorem tokenizeL_atom (ts rest : List Char) (hne : ts ≠ [])
    (hts : ∀ c ∈ ts, isAtomBreak c = false)
    (hrest : rest = [] ∨ ∃ c rs, rest = c :: rs ∧ isAtomBreak c = true) :
    tokenizeL (ts ++ rest) = String.mk ts :: tokenizeL rest := by
  rcases ts with _ | ⟨c, ts'⟩
  · exact absurd rfl hne
  have hc := hts c (by simp)
  have hcb : ¬ c = ';' := by
    intro hx; subst hx; exact absurd hc (by decide)
  have hcp : ¬ (c = '(' ∨ c = ')') := by
    rintro (hx | hx) <;> (subst hx; exact absurd hc (by decide))
  have hcs : ¬ isSpaceChar c = true := by
    intro hx
    rw [isAtomBreak] at hc
    simp only [hx, Bool.true_or] at hc
    exact absurd hc (by simp)
  have hta : takeAtom ((c :: ts') ++ rest) = (c :: ts', rest) :=
    takeAtom_append _ _ hts hrest
  show tokenizeGo ((c :: ts' ++ rest).length + 1) (c :: (ts' ++ rest)) = _
  rw [tokenizeGo, if_neg hcb, if_neg hcp, if_neg hcs]
  rw [show c :: (ts' ++ rest) = (c :: ts') ++ rest from rfl, hta]
  simp only [List.cons_append, List.length_cons, List.length_append]
  congr 1
  exact tokenizeGo_irrel _ rest _ (by omega) (by omega)

/-- An integer never prints as the empty string. -/
theorem renderInt_ne_nil (n : Int) : renderInt n ≠ [] := by
  rw [renderInt]
  split
  · simp
  · exact renderNat_ne_nil n.natAbs

/-- An integer prints with no token-breaking characters. -/
theorem renderInt_break (n : Int) : ∀ c ∈ renderInt n, isAtomBreak c = false := by
  intro c hc
  rw [renderInt] at hc
  have hdig : ∀ c ∈ renderNat n.natAbs, isAtomBreak c = false :=
    fun c hc => digit_not_break c (renderNat_digits n.natAbs c hc)
  rcases (by by_cases h : n < 0 <;> simp [h] at hc <;> tauto :
      c = '-' ∨ c ∈ renderNat n.natAbs) with h | h
  · subst h; decide
  · exact hdig c h

/-- Every Expression has positive size. -/
theorem expr_sizeOf_pos (e : Expr) : 0 < sizeOf e := by
  cases e <;> simp <;> omega

/-- Flattening the tokenizer over a rendered Expression: a good atom reads
back as a single token, and a rendered list reads back as its bracketed
token sequence, in front of any continuation that starts with a break
character. -/
theorem tokenizeRenderAux (n : Nat) :
    (∀ e : Expr, sizeOf e ≤ n → goodAtoms e = true → ∀ rest : List Char,
        (rest = [] ∨ ∃ c rs, rest = c :: rs ∧ isAtomBreak c = true) →
        tokenizeL (renderExpr e ++ rest) = renderTokens e ++ tokenizeL rest) ∧
    (∀ es : List Expr, sizeOf es ≤ n → goodAtomsList es = true →
        ∀ (c : Char) (rs : List Char), isAtomBreak c = true →
        tokenizeL (joinSpaceExpr es ++ c :: rs) =
          renderTokensList es ++ tokenizeL (c :: rs)) := by
  induction n using Nat.strong_induction_on with
  | _ n ih =>
      constructor
      · intro e hsz hgood rest hrest
        cases e with
        | int m =>
            rw [show renderExpr (.int m) = renderInt m from rfl,
              tokenizeL_atom _ _ (renderInt_ne_nil m) (renderInt_break m) hrest]
            rfl
        | float f =>
            have hgf : goodFloat f = true := by
              simpa [goodAtoms] using hgood
            obtain ⟨_, _, hne, hbreak⟩ := renderFloat_spec f hgf
            rw [show renderExpr (.float f) = renderFloat f from rfl,
              tokenizeL_atom _ _ hne hbreak hrest]
            rfl
        | sym s =>
            have hgs : goodSym s = true := by
              simpa [goodAtoms] using hgood
            rw [goodSym] at hgs
            simp only [decide_eq_true_eq] at hgs
            obtain ⟨hne, hall, _, _⟩ := hgs
            have hne2 : s.toList ≠ [] := by
              intro hx
              rw [hx] at hne
              simp at hne
            have hbreak : ∀ c ∈ s.toList, isAtomBreak c = false := by
              intro c hc
              have := List.all_eq_true.mp hall c hc
              simpa using this
            rw [show renderExpr (.sym s) = s.toList from rfl,
              tokenizeL_atom _ _ hne2 hbreak hrest]
            rfl
        | list es =>
            have hszes : sizeOf es < n := by
              have : sizeOf (Expr.list es) = 1 + sizeOf es := by simp
              omega
            have hges : goodAtomsList es = true := by
              simpa [goodAtoms] using hgood
            have hQ := (ih (sizeOf es) hszes).2 es le_rfl hges ')' rest (by decide)
            rw [show renderExpr (.list es) = '(' :: (joinSpaceExpr es ++ [')']) from rfl]
            rw [List.cons_append, List.append_assoc, List.singleton_append]
            rw [tokenizeL_paren '(' _ (Or.inl rfl), hQ,
              tokenizeL_paren ')' _ (Or.inr rfl)]
            rw [show renderTokens (.list es) = "(" :: (renderTokensList es ++ [")"]) from rfl]
            simp
      · intro es hsz hgood c rs hc
        cases es with
        | nil => simp [joinSpaceExpr, renderTokensList]
        | cons x t =>
            cases t with
            | nil =>
                have hszx : sizeOf x < n := by
                  have h1 : sizeOf ([x] : List Expr) = 1 + sizeOf x + sizeOf ([] : List Expr) :=
                    List.cons.sizeOf_spec x []
                  have h2 : sizeOf ([] : List Expr) = 1 := List.nil.sizeOf_spec
                  omega
                have hgx : goodAtoms x = true := by
                  simp only [goodAtomsList, Bool.and_eq_true] at hgood
                  exact hgood.1
                have hP := (ih (sizeOf x) hszx).1 x le_rfl hgx (c :: rs)
                  (Or.inr ⟨c, rs, rfl, hc⟩)
                rw [show joinSpaceExpr [x] = renderExpr x from rfl, hP]
                simp [renderTokensList]
            | cons y t =>
                have hxpos := expr_sizeOf_pos x
                have hsplit : sizeOf (x :: y :: t) = 1 + sizeOf x + sizeOf (y :: t) :=
                  List.cons.sizeOf_spec x (y :: t)
                have hszx : sizeOf x < n := by omega
                have hszyt : sizeOf (y :: t) < n := by omega
                have hgx : goodAtoms x = true := by
                  simp only [goodAtomsList, Bool.and_eq_true] at hgood
                  exact hgood.1
                have hgyt : goodAtomsList (y :: t) = true := by
                  simp only [goodAtomsList, Bool.and_eq_true] at hgood
                  simp only [goodAtomsList, Bool.and_eq_true]
                  exact hgood.2
                have hQ := (ih (sizeOf (y :: t)) hszyt).2 (y :: t) le_rfl hgyt c rs hc
                have hP := (ih (sizeOf x) hszx).1 x le_rfl hgx
                  (' ' :: (joinSpaceExpr (y :: t) ++ c :: rs))
                  (Or.inr ⟨' ', _, rfl, by decide⟩)
                rw [show joinSpaceExpr (x :: y :: t) =
                  renderExpr x ++ ' ' :: joinSpaceExpr (y :: t) from rfl]
                rw [List.append_assoc, List.cons_append, hP, tokenizeL_space, hQ]
                rw [show renderTokensList (x :: y :: t) =
                  renderTokens x ++ renderTokensList (y :: t) from rfl]
                simp

/-- A token whose characters are all non-breaking is neither parenthesis
token. -/
theorem str_ne_parens (s : String)
    (hb : ∀ c ∈ s.toList, isAtomBreak c = false) : s ≠ "(" ∧ s ≠ ")" := by
  constructor <;> intro hx <;> subst hx
  · exact absurd (hb '(' (by decide)) (by decide)
  · exact absurd (hb ')' (by decide)) (by decide)

/-- `atom` reads a printed integer back as the same integer. -/
theorem atomExpr_int (n : Int) : atomExpr (String.mk (renderInt n)) = .int n := by
  rw [atomExpr, show (String.mk (renderInt n)).toList = renderInt n from rfl,
    parseInt_renderInt]

/-- `atom` reads a printed good float back as the same float. -/
theorem atomExpr_float (f : PyFloat) (h : goodFloat f = true) :
    atomExpr (String.mk (renderFloat f)) = .float f := by
  obtain ⟨hpf, hpi, _, _⟩ := renderFloat_spec f h
  rw [atomExpr, show (String.mk (renderFloat f)).toList = renderFloat f from rfl,
    hpi, hpf]

/-- `atom` keeps a good symbol as a symbol. -/
theorem atomExpr_sym (s : String) (h : goodSym s = true) : atomExpr s = .sym s := by
  rw [goodSym] at h
  simp only [decide_eq_true_eq] at h
  obtain ⟨_, _, hpi, hpf⟩ := h
  rw [atomExpr, Option.isNone_iff_eq_none.mp hpi, Option.isNone_iff_eq_none.mp hpf]

/-- A rendered good Expression's token sequence is nonempty and never
starts with the closing parenthesis. -/
theorem renderTokens_shape (e : Expr) (h : goodAtoms e = true) :
    ∃ t0 ts', renderTokens e = t0 :: ts' ∧ t0 ≠ ")" := by
  cases e with
  | int n =>
      exact ⟨_, _, rfl,
        (str_ne_parens (String.mk (renderInt n)) (fun c hc => renderInt_break n c hc)).2⟩
  | float f =>
      have hgf : goodFloat f = true := by simpa [goodAtoms] using h
      obtain ⟨_, _, _, hbreak⟩ := renderFloat_spec f hgf
      exact ⟨_, _, rfl, (str_ne_parens (String.mk (renderFloat f)) (fun c hc => hbreak c hc)).2⟩
  | sym s =>
      have hgs : goodSym s = true := by simpa [goodAtoms] using h
      rw [goodSym] at hgs
      simp only [decide_eq_true_eq] at hgs
      obtain ⟨_, hall, _, _⟩ := hgs
      have hb : ∀ c ∈ s.toList, isAtomBreak c = false := by
        intro c hc
        have := List.all_eq_true.mp hall c hc
        simpa using this
      exact ⟨s, [], rfl, (str_ne_parens s hb).2⟩
  | list es => exact ⟨"(", _, rfl, by decide⟩

/-- Parsing inverts rendering: a good Expression's token sequence parses
back to the Expression itself in front of any continuation, and inside a
form the rendered children accumulate before the matching `)`. -/
theorem parseRenderAux (n : Nat) :
    (∀ e : Expr, sizeOf e ≤ n → goodAtoms e = true →
      ∀ (fuel : Nat) (rest : List Token) (ln : Nat),
        2 * (renderTokens e).length + 2 ≤ fuel →
        parseGo fuel .one (renderTokens e ++ rest) ln = .ok (e, rest)) ∧
    (∀ es : List Expr, sizeOf es ≤ n → goodAtomsList es = true →
      ∀ (fuel : Nat) (acc : List Expr) (rest : List Token) (ln : Nat),
        2 * (renderTokensList es).length + 3 ≤ fuel →
        parseGo fuel (.children acc) (renderTokensList es ++ ")" :: rest) ln =
          .ok (.list (acc ++ es), rest)) := by
  induction n using Nat.strong_induction_on with
  | _ n ih =>
      constructor
      · intro e hsz hgood fuel rest ln hfuel
        obtain ⟨f, rfl⟩ : ∃ f, fuel = f + 1 := ⟨fuel - 1, by omega⟩
        cases e with
        | int m =>
            have hne := str_ne_parens (String.mk (renderInt m))
              (fun c hc => renderInt_break m c hc)
            rw [show renderTokens (.int m) ++ rest =
              String.mk (renderInt m) :: rest from rfl]
            rw [parseGo, if_neg hne.1, if_neg hne.2, atomExpr_int]
        | float g =>
            have hgf : goodFloat g = true := by simpa [goodAtoms] using hgood
            obtain ⟨_, _, _, hbreak⟩ := renderFloat_spec g hgf
            have hne := str_ne_parens (String.mk (renderFloat g))
              (fun c hc => hbreak c hc)
            rw [show renderTokens (.float g) ++ rest =
              String.mk (renderFloat g) :: rest from rfl]
            rw [parseGo, if_neg hne.1, if_neg hne.2, atomExpr_float g hgf]
        | sym s =>
            have hgs : goodSym s = true := by simpa [goodAtoms] using hgood
            have hb : ∀ c ∈ s.toList, isAtomBreak c = false := by
              rw [goodSym] at hgs
              simp only [decide_eq_true_eq] at hgs
              intro c hc
              have := List.all_eq_true.mp hgs.2.1 c hc
              simpa using this
            have hne := str_ne_parens s hb
            rw [show renderTokens (.sym s) ++ rest = s :: rest from rfl]
            rw [parseGo, if_neg hne.1, if_neg hne.2, atomExpr_sym s hgs]
        | list es =>
            have hszes : sizeOf es < n := by
              have : sizeOf (Expr.list es) = 1 + sizeOf es := by simp
              omega
            have hges : goodAtomsList es = true := by simpa [goodAtoms] using hgood
            have hflen : 2 * (renderTokensList es).length + 3 ≤ f := by
              have : (renderTokens (.list es)).length =
                  (renderTokensList es).length + 2 := by
                rw [show renderTokens (.list es) =
                  "(" :: (renderTokensList es ++ [")"]) from rfl]
                simp
              omega
            have hQ := (ih (sizeOf es) hszes).2 es le_rfl hges f [] rest ln hflen
            rw [show renderTokens (.list es) ++ rest =
              "(" :: (renderTokensList es ++ ")" :: rest) from by
                rw [show renderTokens (.list es) =
                  "(" :: (renderTokensList es ++ [")"]) from rfl]
                simp]
            rw [parseGo, if_pos rfl, hQ]
            simp
      · intro es hsz hgood fuel acc rest ln hfuel
        obtain ⟨f, rfl⟩ : ∃ f, fuel = f + 1 := ⟨fuel - 1, by omega⟩
        cases es with
        | nil =>
            rw [show renderTokensList ([] : List Expr) ++ ")" :: rest =
              ")" :: rest from rfl]
            rw [parseGo, if_pos rfl]
            simp
        | cons x t =>
            have hxpos := expr_sizeOf_pos x
            have hsplit : sizeOf (x :: t) = 1 + sizeOf x + sizeOf t :=
              List.cons.sizeOf_spec x t
            have hszx : sizeOf x < n := by omega
            have hszt : sizeOf t < n := by omega
            have hgx : goodAtoms x = true := by
              simp only [goodAtomsList, Bool.and_eq_true] at hgood
              exact hgood.1
            have hgt : goodAtomsList t = true := by
              simp only [goodAtomsList, Bool.and_eq_true] at hgood
              exact hgood.2
            have hxlen : 1 ≤ (renderTokens x).length := by
              obtain ⟨t0, ts', heq, _⟩ := renderTokens_shape x hgx
              rw [heq]
              simp
            have hlsplit : (renderTokensList (x :: t)).length =
                (renderTokens x).length + (renderTokensList t).length := by
              rw [show renderTokensList (x :: t) =
                renderTokens x ++ renderTokensList t from rfl]
              simp
            have hP := (ih (sizeOf x) hszx).1 x le_rfl hgx f
              (renderTokensList t ++ ")" :: rest) ln (by omega)
            have hQ := (ih (sizeOf t) hszt).2 t le_rfl hgt f (acc ++ [x]) rest ln
              (by omega)
            obtain ⟨t0, ts', heq, hne⟩ := renderTokens_shape x hgx
            rw [show renderTokensList (x :: t) ++ ")" :: rest =
              renderTokens x ++ (renderTokensList t ++ ")" :: rest) from by
                rw [show renderTokensList (x :: t) =
                  renderTokens x ++ renderTokensList t from rfl]
                simp]
            rw [heq, List.cons_append, parseGo, if_neg hne]
            rw [← List.cons_append, ← heq, hP]
            dsimp only
            rw [hQ]
            simp

/-- The whole-queue parser reads a rendered good Expression back as the
single form it is, with the line counter at 2. -/
theorem parse_renderTokens (e : Expr) (h : goodAtoms e = true) :
    parse (renderTokens e) = .ok ([e], 2) := by
  obtain ⟨t0, ts', heq, _⟩ := renderTokens_shape e h
  have hone : parseGo (parseFuel (renderTokens e)) .one (renderTokens e) 1 = .ok (e, []) := by
    have := (parseRenderAux (sizeOf e)).1 e le_rfl h (parseFuel (renderTokens e)) [] 1
      (by rw [parseFuel]; omega)
    rwa [List.append_nil] at this
  obtain ⟨F, hF⟩ : ∃ F, parseFuel (renderTokens e) = F + 1 :=
    ⟨parseFuel (renderTokens e) - 1, by rw [parseFuel]; omega⟩
  have hF1 : 1 ≤ F := by rw [parseFuel] at hF; omega
  have hone2 : parseRec (F + 1) (t0 :: ts') 1 = .ok (e, []) := by
    rw [parseRec, ← heq, ← hF]
    exact hone
  rw [parse, hF, heq]
  simp only [parseTop, hone2]
  obtain ⟨F2, hF2⟩ : ∃ F2, F = F2 + 1 := ⟨F - 1, by omega⟩
  rw [hF2]
  rfl

/-- The denominator of an integer over a power of ten divides that power
of ten. -/
theorem den_dvd_of_div_pow10 (a : Int) (j : Nat) :
    ((a : ℚ) / ((10 : ℚ) ^ j)).den ∣ 10 ^ j := by
  have h1 : ((10 : ℚ) ^ j) = (((10 ^ j : ℤ)) : ℚ) := by push_cast; ring
  rw [h1,
    show (a : ℚ) / (((10 ^ j : ℤ)) : ℚ) = Rat.divInt a (10 ^ j) from
      (Rat.divInt_eq_div _ _).symm]
  have h2 : ((Rat.divInt a (10 ^ j)).den : ℤ) ∣ (10 ^ j : ℤ) := Rat.den_dvd a _
  have h3 : ((Rat.divInt a (10 ^ j)).den : ℤ) ∣ ((10 ^ j : ℕ) : ℤ) := by
    exact_mod_cast h2
  exact_mod_cast h3

/-- Same with a natural numerator. -/
theorem den_dvd_of_natdiv_pow10 (a : Nat) (j : Nat) :
    (((a : ℚ)) / ((10 : ℚ) ^ j)).den ∣ 10 ^ j := by
  have h := den_dvd_of_div_pow10 (a : ℤ) j
  have hc : (((a : ℤ) : ℚ)) = (a : ℚ) := by push_cast; ring
  rwa [hc] at h

/-- Negating a rational keeps its denominator, hence its decimality. -/
theorem decimalDenom_neg (q : ℚ) : decimalDenom (-q) = decimalDenom q := by
  rw [decimalDenom, decimalDenom, Rat.neg_den]

/-- Scaling a natural over a power of ten by any power of ten stays
decimal-representable. -/
theorem decimalDenom_scale (v : ℚ)
    (hv : ∃ (N : Nat) (k : Nat), v = (N : ℚ) / (10 : ℚ) ^ k) (e : Int) :
    decimalDenom (scalePow10 v e) = true := by
  obtain ⟨N, k, rfl⟩ := hv
  rw [scalePow10]
  have hmain : ∀ (M j : Nat),
      decimalDenom ((M : ℚ) / (10 : ℚ) ^ j) = true := by
    intro M j
    have hdvd := den_dvd_of_natdiv_pow10 M j
    rw [decimalDenom]
    simp only [decide_eq_true_eq]
    exact decimalDenom_of_dvd_pow10 _ ((M : ℚ) / (10 : ℚ) ^ j).pos j hdvd
  cases e with
  | ofNat m =>
      have hq : (N : ℚ) / (10 : ℚ) ^ k * (10 : ℚ) ^ (Int.ofNat m)
          = ((N * 10 ^ m : ℕ) : ℚ) / (10 : ℚ) ^ k := by
        rw [show ((Int.ofNat m : ℤ)) = ((m : ℕ) : ℤ) from rfl, zpow_natCast]
        push_cast
        ring
      rw [hq]
      exact hmain (N * 10 ^ m) k
  | negSucc m =>
      have hq : (N : ℚ) / (10 : ℚ) ^ k * (10 : ℚ) ^ (Int.negSucc m)
          = (N : ℚ) / (10 : ℚ) ^ (k + (m + 1)) := by
        rw [zpow_negSucc, pow_add]
        field_simp
        left
        ring
      rw [hq]
      exact hmain N (k + (m + 1))

/-- Every rational `float(token)` can produce is decimal-representable. -/
theorem parseFloatBody_decimal (s : List Char) (q : ℚ)
    (h : parseFloatBody s = some q) : decimalDenom q = true := by
  rw [parseFloatBody] at h
  rcases htd : takeDigits s with ⟨ipart, rest1⟩
  rw [htd] at h
  dsimp only at h
  split at h
  · rename_i rest2
    rcases htd2 : takeDigits rest2 with ⟨fpart, rest3⟩
    rw [htd2] at h
    dsimp only at h
    split at h
    · exact absurd h (by simp)
    · split at h
      · rename_i e he
        injection h with h
        subst h
        apply decimalDenom_scale
        exact ⟨parseNatDigits ipart * 10 ^ fpart.length + parseNatDigits fpart,
          fpart.length, by push_cast; ring⟩
      · exact absurd h (by simp)
  · split at h
    · exact absurd h (by simp)
    · split at h
      · rename_i e he
        injection h with h
        subst h
        apply decimalDenom_scale
        exact ⟨parseNatDigits ipart, 0, by simp⟩
      · exact absurd h (by simp)

/-- Every non-`nan` value `float(token)` can produce is a good float. -/
theorem parseFloat_good (s : List Char) (f : PyFloat)
    (h : parseFloat s = some f) (hn : f ≠ .nan) : goodFloat f = true := by
  rw [parseFloat] at h
  rcases hs : splitSign s with ⟨neg, body⟩
  rw [hs] at h
  dsimp only at h
  split at h
  · injection h with h
    subst h
    cases neg <;> simp [goodFloat]
  · split at h
    · injection h with h
      subst h
      exact absurd rfl hn
    · split at h
      · rename_i q hq
        injection h with h
        subst h
        have hd := parseFloatBody_decimal body q hq
        cases neg
        · simpa [goodFloat] using hd
        · simp only [goodFloat, if_pos]
          rw [decimalDenom_neg]
          exact hd
      · cases h

/-- Every character the atom loop collects is non-breaking. -/
theorem takeAtom_fst_break (l : List Char) :
    ∀ c ∈ (takeAtom l).1, isAtomBreak c = false := by
  induction l with
  | nil => intro c hc; simp [takeAtom] at hc
  | cons a rest ih =>
      intro c hc
      cases hx : isAtomBreak a with
      | true =>
          rw [takeAtom, if_pos hx] at hc
          simp at hc
      | false =>
          rw [takeAtom_cons_notBreak a rest hx] at hc
          rcases hc with _ | ⟨_, hc⟩
          · exact hx
          · exact ih c hc

/-- Every token the tokenizer emits is a parenthesis or a nonempty run of
non-breaking characters. -/
theorem tokenizeGo_shape (fuel : Nat) : ∀ (cs : List Char) (t : Token),
    t ∈ tokenizeGo fuel cs →
    t = "(" ∨ t = ")" ∨ (t.toList ≠ [] ∧ ∀ c ∈ t.toList, isAtomBreak c = false) := by
  induction fuel with
  | zero => intro cs t ht; simp [tokenizeGo] at ht
  | succ fuel ih =>
      intro cs t ht
      cases cs with
      | nil => simp [tokenizeGo] at ht
      | cons c rest =>
          rw [tokenizeGo] at ht
          by_cases hc : c = ';'
          · rw [if_pos hc] at ht
            exact ih _ t ht
          · rw [if_neg hc] at ht
            by_cases hp : c = '(' ∨ c = ')'
            · rw [if_pos hp] at ht
              rcases ht with _ | ⟨_, ht⟩
              · rcases hp with hp | hp <;> subst hp
                · exact Or.inl rfl
                · exact Or.inr (Or.inl rfl)
              · exact ih _ t ht
            · rw [if_neg hp] at ht
              by_cases hsp : isSpaceChar c
              · rw [if_pos hsp] at ht
                exact ih _ t ht
              · rw [if_neg hsp] at ht
                rcases ht with _ | ⟨_, ht⟩
                · right; right
                  have hcb : isAtomBreak c = false := by
                    cases hx : isAtomBreak c
                    · rfl
                    · exfalso
                      rw [isAtomBreak] at hx
                      simp only [decide_eq_true_eq] at hx
                      rcases hx with hx | hx | hx | hx
                      · exact hsp hx
                      · exact hp (Or.inl hx)
                      · exact hp (Or.inr hx)
                      · exact hc hx
                  constructor
                  · rw [show (String.mk (takeAtom (c :: rest)).1).toList =
                      (takeAtom (c :: rest)).1 from rfl]
                    rw [takeAtom_cons_notBreak c rest hcb]
                    simp
                  · intro ch hch
                    exact takeAtom_fst_break (c :: rest) ch hch
                · exact ih _ t ht

/-- `atom` on a nonempty, break-free token yields a good atom unless the
token reads as the float `nan`. -/
theorem atomExpr_good (t : Token) (hne : t.toList ≠ [])
    (hb : ∀ c ∈ t.toList, isAtomBreak c = false)
    (hnan : noNanE (atomExpr t) = true) :
    goodAtoms (atomExpr t) = true := by
  have hcases : (∃ n, atomExpr t = .int n) ∨
      (∃ f, atomExpr t = .float f ∧ parseFloat t.toList = some f) ∨
      (atomExpr t = .sym t ∧ parseInt t.toList = none ∧ parseFloat t.toList = none) := by
    rcases hi : parseInt t.toList with _ | n
    · rcases hf : parseFloat t.toList with _ | f
      · exact Or.inr (Or.inr ⟨by rw [atomExpr, hi, hf], rfl, rfl⟩)
      · exact Or.inr (Or.inl ⟨f, by rw [atomExpr, hi, hf], rfl⟩)
    · exact Or.inl ⟨n, by rw [atomExpr, hi]⟩
  rcases hcases with ⟨n, hn⟩ | ⟨f, hf, hpf⟩ | ⟨hs, hi, hf⟩
  · rw [hn]
    rfl
  · rw [hf] at hnan ⊢
    have hfn : f ≠ .nan := by
      intro hx
      subst hx
      exact absurd hnan (by decide)
    have hg := parseFloat_good t.toList f hpf hfn
    rw [show goodAtoms (.float f) = goodFloat f from rfl]
    exact hg
  · rw [hs]
    rw [show goodAtoms (.sym t) = goodSym t from rfl, goodSym]
    simp only [decide_eq_true_eq]
    refine ⟨?_, ?_, ?_, ?_⟩
    · simpa using hne
    · rw [List.all_eq_true]
      intro c hc
      simpa using hb c hc
    · rw [hi]; rfl
    · rw [hf]; rfl

/-- Good atoms across list concatenation. -/
theorem goodAtomsList_append (as bs : List Expr) :
    goodAtomsList (as ++ bs) = (goodAtomsList as && goodAtomsList bs) := by
  induction as with
  | nil => simp [goodAtomsList]
  | cons a t ih => simp [goodAtomsList, ih, Bool.and_assoc]

/-- Nan-freedom across list concatenation. -/
theorem noNanEList_append (as bs : List Expr) :
    noNanEList (as ++ bs) = (noNanEList as && noNanEList bs) := by
  induction as with
  | nil => simp [noNanEList]
  | cons a t ih => simp [noNanEList, ih, Bool.and_assoc]

/-- Every Expression the parser produces from well-shaped tokens is made
of good atoms wherever it is `nan`-free, and the leftover queue is a
subset of the input queue. -/
theorem parseGood (fuel : Nat) :
    ∀ (ts : List Token) (ln : Nat),
      (∀ t ∈ ts, t = "(" ∨ t = ")" ∨
        (t.toList ≠ [] ∧ ∀ c ∈ t.toList, isAtomBreak c = false)) →
      (∀ (e : Expr) (ts2 : List Token),
          parseGo fuel .one ts ln = .ok (e, ts2) →
          (noNanE e = true → goodAtoms e = true) ∧ ∀ t ∈ ts2, t ∈ ts) ∧
      (∀ (acc : List Expr) (e : Expr) (ts2 : List Token),
          (noNanEList acc = true → goodAtomsList acc = true) →
          parseGo fuel (.children acc) ts ln = .ok (e, ts2) →
          (noNanE e = true → goodAtoms e = true) ∧ ∀ t ∈ ts2, t ∈ ts) := by
  induction fuel with
  | zero =>
      intro ts ln hts
      constructor
      · intro e ts2 h
        rw [parseGo] at h
        simp at h
      · intro acc e ts2 hacc h
        rw [parseGo] at h
        simp at h
  | succ fuel ih =>
      intro ts ln hts
      cases ts with
      | nil =>
          constructor
          · intro e ts2 h
            rw [parseGo] at h
            simp at h
          · intro acc e ts2 hacc h
            rw [parseGo] at h
            simp at h
      | cons t ts =>
          have htshape := hts t (by simp)
          have htail : ∀ x ∈ ts, x = "(" ∨ x = ")" ∨
              (x.toList ≠ [] ∧ ∀ c ∈ x.toList, isAtomBreak c = false) :=
            fun x hx => hts x (by simp [hx])
          constructor
          · intro e ts2 h
            by_cases h1 : t = "("
            · rw [parseGo, if_pos h1] at h
              have hres := (ih ts ln htail).2 [] e ts2 (fun _ => rfl) h
              exact ⟨hres.1, fun x hx => by simp [hres.2 x hx]⟩
            · by_cases h2 : t = ")"
              · rw [parseGo, if_neg h1, if_pos h2] at h
                simp at h
              · rw [parseGo, if_neg h1, if_neg h2] at h
                injection h with h
                cases h
                have hshape3 : t.toList ≠ [] ∧ ∀ c ∈ t.toList, isAtomBreak c = false := by
                  rcases htshape with hx | hx | hx
                  · exact absurd hx h1
                  · exact absurd hx h2
                  · exact hx
                refine ⟨fun hnn => atomExpr_good t hshape3.1 hshape3.2 hnn, ?_⟩
                intro x hx
                simp [hx]
          · intro acc e ts2 hacc h
            by_cases h2 : t = ")"
            · rw [parseGo, if_pos h2] at h
              injection h with h
              cases h
              refine ⟨?_, fun x hx => by simp [hx]⟩
              intro hnn
              have hnl : noNanEList acc = true := by
                simpa [noNanE] using hnn
              have hg := hacc hnl
              rw [show goodAtoms (.list acc) = goodAtomsList acc from rfl]
              exact hg
            · rw [parseGo, if_neg h2] at h
              rcases hrec : parseGo fuel .one (t :: ts) ln with err | ⟨e1, ts3⟩
              · rw [hrec] at h
                simp at h
              · rw [hrec] at h
                dsimp only at h
                have h1 := (ih (t :: ts) ln hts).1 e1 ts3 hrec
                have hts3 : ∀ x ∈ ts3, x = "(" ∨ x = ")" ∨
                    (x.toList ≠ [] ∧ ∀ c ∈ x.toList, isAtomBreak c = false) :=
                  fun x hx => hts x (h1.2 x hx)
                have hacc2 : noNanEList (acc ++ [e1]) = true →
                    goodAtomsList (acc ++ [e1]) = true := by
                  intro hx
                  rw [noNanEList_append] at hx
                  rw [goodAtomsList_append]
                  simp only [Bool.and_eq_true] at hx ⊢
                  refine ⟨hacc hx.1, ?_⟩
                  have hnn1 : noNanE e1 = true := by
                    simpa [noNanEList] using hx.2
                  have hg1 := h1.1 hnn1
                  simpa [goodAtomsList] using hg1
                have h3 := (ih ts3 ln hts3).2 (acc ++ [e1]) e ts2 hacc2 h
                exact ⟨h3.1, fun x hx => h1.2 x (h3.2 x hx)⟩

/-- The top-level loop only emits Expressions whose `nan`-free parts are
made of good atoms. -/
theorem parseTop_good (fuel : Nat) :
    ∀ (ts : List Token) (ln : Nat) (es : List Expr) (k : Nat),
      (∀ t ∈ ts, t = "(" ∨ t = ")" ∨
        (t.toList ≠ [] ∧ ∀ c ∈ t.toList, isAtomBreak c = false)) →
      parseTop fuel ts ln = .ok (es, k) →
      ∀ e ∈ es, noNanE e = true → goodAtoms e = true := by
  induction fuel with
  | zero =>
      intro ts ln es k hts h
      rw [parseTop] at h
      simp at h
  | succ fuel ih =>
      intro ts ln es k hts h
      cases ts with
      | nil =>
          rw [parseTop] at h
          injection h with h
          cases h
          intro e he
          simp at he
      | cons t ts0 =>
          simp only [parseTop, parseRec] at h
          rcases hrec : parseGo (fuel + 1) .one (t :: ts0) ln with err | ⟨e1, ts2⟩
          · rw [hrec] at h
            simp at h
          · rw [hrec] at h
            dsimp only at h
            rcases htop : parseTop fuel ts2 (ln + 1) with err2 | ⟨es2, k2⟩
            · rw [htop] at h
              simp at h
            · rw [htop] at h
              dsimp only at h
              injection h with h
              injection h with ha hb
              subst ha
              subst hb
              have hp := (parseGood (fuel + 1) (t :: ts0) ln hts).1 e1 ts2 hrec
              have hts2 : ∀ x ∈ ts2, x = "(" ∨ x = ")" ∨
                  (x.toList ≠ [] ∧ ∀ c ∈ x.toList, isAtomBreak c = false) :=
                fun x hx => hts x (hp.2 x hx)
              intro e he
              rcases he with _ | ⟨_, he⟩
              · exact hp.1
              · exact ih ts2 (ln + 1) es2 k2 hts2 htop e he

/-- CPython `==` is reflexive on `nan`-free Expressions. -/
theorem pyExprEq_refl_aux (n : Nat) :
    (∀ e : Expr, sizeOf e ≤ n → noNanE e = true → pyExprEq e e = true) ∧
    (∀ es : List Expr, sizeOf es ≤ n → noNanEList es = true →
      pyExprEqList es es = true) := by
  induction n using Nat.strong_induction_on with
  | _ n ih =>
      constructor
      · intro e hsz hnn
        cases e with
        | int m => simp [pyExprEq]
        | float f =>
            cases f with
            | finite q => simp [pyExprEq, pyFloatEq]
            | inf => simp [pyExprEq, pyFloatEq]
            | neginf => simp [pyExprEq, pyFloatEq]
            | nan => exact absurd hnn (by decide)
        | sym s => simp [pyExprEq]
        | list es =>
            have hszes : sizeOf es < n := by
              have : sizeOf (Expr.list es) = 1 + sizeOf es := by simp
              omega
            have hnl : noNanEList es = true := by
              simpa [noNanE] using hnn
            have h := (ih (sizeOf es) hszes).2 es le_rfl hnl
            simpa [pyExprEq] using h
      · intro es hsz hnn
        cases es with
        | nil => rfl
        | cons x t =>
            have hxpos := expr_sizeOf_pos x
            have hsplit : sizeOf (x :: t) = 1 + sizeOf x + sizeOf t :=
              List.cons.sizeOf_spec x t
            have hx : noNanE x = true ∧ noNanEList t = true := by
              simpa [noNanEList, Bool.and_eq_true] using hnn
            have h1 := (ih (sizeOf x) (by omega)).1 x le_rfl hx.1
            have h2 := (ih (sizeOf t) (by omega)).2 t le_rfl hx.2
            simp [pyExprEqList, h1, h2]

/-- The tokenizer reads the rendered text of a good Expression back as
exactly its token sequence. -/
theorem tokenize_lispStr (e : Expr) (h : goodAtoms e = true) :
    tokenize (lispStr e) = renderTokens e := by
  have hx := (tokenizeRenderAux (sizeOf e)).1 e le_rfl h [] (Or.inl rfl)
  rw [List.append_nil] at hx
  rw [show tokenizeL [] = [] from rfl, List.append_nil] at hx
  exact hx

/-- C8, counterexample to the claim as stated: the program `(nan)` parses
to a list Expression that renders back to `(nan)` and re-parses to the
same shape, yet the structural (CPython `==`) comparison of the original
with its re-parse is `False`, because `nan` is unequal to the fresh `nan`
the re-parse produces. -/
theorem c8_roundtrip_counterexample :
    parse (tokenize "(nan)") = .ok ([.list [.float .nan]], 2) ∧
    lispStr (.list [.float .nan]) = "(nan)" ∧
    parse (tokenize (lispStr (.list [.float .nan]))) =
      .ok ([.list [.float .nan]], 2) ∧
    pyExprEq (.list [.float .nan]) (.list [.float .nan]) = false :=
  ⟨rfl, rfl, rfl, rfl⟩

/-- C8 (amended to `nan`-free Expressions): every `nan`-free Expression
the parser produces — in particular every parsed list Expression —
renders via `lisp_str` to text that tokenizes and re-parses to exactly
that one Expression (line counter 2), and the re-parse is structurally
equal to the original under CPython `==`. -/
theorem c8_roundtrip (src : String) (es : List Expr) (k : Nat) (e : Expr)
    (hparse : parse (tokenize src) = .ok (es, k)) (he : e ∈ es)
    (hnn : noNanE e = true) :
    parse (tokenize (lispStr e)) = .ok ([e], 2) ∧ pyExprEq e e = true := by
  have hshape : ∀ t ∈ tokenize src, t = "(" ∨ t = ")" ∨
      (t.toList ≠ [] ∧ ∀ c ∈ t.toList, isAtomBreak c = false) :=
    fun t ht => tokenizeGo_shape (src.toList.length + 1) src.toList t ht
  rw [parse] at hparse
  have hgood : goodAtoms e = true :=
    parseTop_good (parseFuel (tokenize src)) (tokenize src) 1 es k hshape hparse e he hnn
  refine ⟨?_, (pyExprEq_refl_aux (sizeOf e)).1 e le_rfl hnn⟩
  rw [tokenize_lispStr e hgood]
  exact parse_renderTokens e hgood

/-- Witness for `c8_roundtrip` at the parsed program `(1 x)`. -/
theorem c8_roundtrip_witness :
    parse (tokenize "(1 x)") = .ok ([.list [.int 1, .sym "x"]], 2) ∧
    noNanE (.list [.int 1, .sym "x"]) = true ∧
    (parse (tokenize (lispStr (.list [.int 1, .sym "x"]))) =
        .ok ([.list [.int 1, .sym "x"]], 2) ∧
      pyExprEq (.list [.int 1, .sym "x"]) (.list [.int 1, .sym "x"]) = true) :=
  ⟨rfl, rfl, c8_roundtrip "(1 x)" [.list [.int 1, .sym "x"]] 2
    (.list [.int 1, .sym "x"]) rfl (by simp) rfl⟩

end MyLisp
